import Mathlib

/-!
# bethutil: the `btu::bsa::Archive` facade and `btu::tex::error_from_hresult`

A shallow embedding of `src/bsa/archive.cpp` and `src/tex/error_code.cpp`.

* `std::filesystem::path` is embedded for a POSIX build: a path is its string in
  generic format, and the lexical operations follow the C++ standard's wording.
* The codec library (`libbsa`) is an external collaborator.  Its containers are
  key-unique association maps, its file objects record the bytes and the
  compression request they were built with, and everything it decides on its own
  (key normalisation, format probing, parsing of archives and files on disk) is a
  field of `Codec`, over which the theorems quantify.
* A member function that may throw returns an `Outcome`: the facade after the call
  together with either the returned value or the exception.
-/

namespace btu

/-! ## `std::filesystem::path`, POSIX generic format -/

/-- A path, held as its string in generic format. -/
abbrev Path := String

/-- Embeds `path::generic_string()`: on POSIX the native format is the generic one. -/
def generic_string (p : Path) : String := p

/-- Pieces of a character sequence between directory separators, empty pieces kept. -/
def split_sep : List Char → List (List Char)
  | [] => [[]]
  | c :: cs =>
    match split_sep cs with
    | [] => [[]]
    | w :: ws => if c = '/' then [] :: w :: ws else (c :: w) :: ws

/-- The filenames of a path: the non-empty pieces between separators. -/
def filenames (cs : List Char) : List (List Char) :=
  (split_sep cs).filter (fun w => !w.isEmpty)

/-- Embeds `path::has_root_directory()`. -/
def has_root_directory (cs : List Char) : Bool :=
  cs.head? == some '/'

/-- Joins filenames with a single separator. -/
def join_sep : List (List Char) → List Char
  | [] => []
  | [w] => w
  | w :: ws => w ++ '/' :: join_sep ws

/-- One filename of `lexically_normal`, on the stack of kept filenames (top first):
a dot is removed, a dot-dot removes the filename before it, is removed itself
right after a root directory, and is kept otherwise. -/
def normal_step (rooted : Bool) (stack : List (List Char)) (name : List Char) :
    List (List Char) :=
  if name = ['.'] then stack
  else if name = ['.', '.'] then
    match stack with
    | [] => if rooted then [] else [name]
    | top :: rest => if top = ['.', '.'] then name :: top :: rest else rest
  else name :: stack

/-- Embeds `path::lexically_normal()` on a character sequence. -/
def lexically_normal_chars (cs : List Char) : List Char :=
  if cs.isEmpty then []
  else
    let rooted := has_root_directory cs
    let kept := ((filenames cs).foldl (normal_step rooted) []).reverse
    let last := (split_sep cs).getLast?
    let trailing := last == some [] || last == some ['.'] || last == some ['.', '.']
    let closing : List Char :=
      match kept.getLast? with
      | none => []
      | some w => if trailing && w != ['.', '.'] then ['/'] else []
    let out := (if rooted then ['/'] else []) ++ join_sep kept ++ closing
    if out.isEmpty then ['.'] else out

/-- Embeds `path::lexically_normal()`. -/
def lexically_normal (p : Path) : Path :=
  String.mk (lexically_normal_chars p.data)

/-- Drops the separators at the end of a reversed character sequence. -/
def drop_sep : List Char → List Char
  | [] => []
  | c :: cs => if c = '/' then drop_sep cs else c :: cs

/-- Embeds `path::parent_path()` on a character sequence. -/
def parent_path_chars (cs : List Char) : List Char :=
  let upto := cs.reverse.dropWhile (fun c => c != '/')
  let dir := (drop_sep upto).reverse
  if dir.isEmpty && !upto.isEmpty then ['/'] else dir

/-- Embeds `path::parent_path()`. -/
def parent_path (p : Path) : Path :=
  String.mk (parent_path_chars p.data)

/-- Embeds `path::filename()`: what follows the last separator. -/
def filename (p : Path) : Path :=
  String.mk (p.data.reverse.takeWhile (fun c => c != '/')).reverse

/-- The elements `path::begin() .. path::end()` iterates over: the root directory,
the filenames, and an empty element after a trailing separator. -/
def elements (cs : List Char) : List (List Char) :=
  (if has_root_directory cs then [['/']] else [])
    ++ filenames cs
    ++ (if !(filenames cs).isEmpty && (split_sep cs).getLast? == some [] then [[]] else [])

/-- Embeds `operator/` on character sequences. -/
def append_chars (p q : List Char) : List Char :=
  if has_root_directory q then q
  else if p.isEmpty then q
  else if p.getLast? == some '/' then p ++ q
  else p ++ '/' :: q

/-- Embeds `operator/`: the right operand replaces the left one when it is absolute,
otherwise it is appended after a separator. -/
def path_append (p q : Path) : Path :=
  String.mk (append_chars p.data q.data)

/-- Removes the common leading elements of two element sequences (`std::mismatch`). -/
def mismatch : List (List Char) → List (List Char) → List (List Char) × List (List Char)
  | a :: as, b :: bs => if a = b then mismatch as bs else (a :: as, b :: bs)
  | as, bs => (as, bs)

/-- The count `n` of `lexically_relative`: plus one for each element of the base's
remainder that is a real filename, minus one for each dot-dot. -/
def relative_depth : List (List Char) → Int
  | [] => 0
  | b :: bs =>
    (if b = ['.', '.'] then -1 else if b = [] ∨ b = ['.'] then 0 else 1) + relative_depth bs

/-- Embeds `path::lexically_relative(base)` on character sequences. -/
def lexically_relative_chars (p base : List Char) : List Char :=
  if has_root_directory p != has_root_directory base then []
  else
    match mismatch (elements p) (elements base) with
    | ([], []) => ['.']
    | (as, bs) =>
      let n := relative_depth bs
      if n < 0 then []
      else if n = 0 ∧ (as = [] ∨ as.head? = some []) then ['.']
      else (List.replicate n.toNat ['.', '.'] ++ as).foldl append_chars []

/-- Embeds `path::lexically_relative(base)`. -/
def lexically_relative (p base : Path) : Path :=
  String.mk (lexically_relative_chars p.data base.data)

/-! ## The codec library -/

/-- A byte buffer (`std::vector<std::byte>`). -/
abbrev Bytes := List (Fin 256)

/-- Modelled from the spec: the container template of the codec library, which is
not part of this repository.  It is a map with unique keys; `insert` puts the
value under the key, "overwriting any existing entry at that key". -/
def hashmap (V : Type) : Type := AList (fun _ : String => V)

instance (V : Type) [DecidableEq V] : DecidableEq (hashmap V) :=
  inferInstanceAs (DecidableEq (AList (fun _ : String => V)))

/-- The container a default constructor leaves: no entry. -/
def hashmap.empty {V : Type} : hashmap V := (∅ : AList (fun _ : String => V))

/-- Embeds `find(key)`: the entry under the key, `none` standing for `end()`. -/
def hashmap.find {V : Type} (m : hashmap V) (k : String) : Option V := AList.lookup k m

/-- Embeds `insert(key, value)`. -/
def hashmap.insert {V : Type} (m : hashmap V) (k : String) (v : V) : hashmap V :=
  AList.insert k v m

/-- A write through the proxy `operator[]` returned: the entry under the key is
changed in place, and nothing happens without one. -/
def hashmap.assign {V : Type} (m : hashmap V) (k : String) (v : V) : hashmap V :=
  AList.replace k v m

/-- Embeds `size()`: the number of entries. -/
def hashmap.size {V : Type} (m : hashmap V) : Nat := m.entries.length

/-- The keys in iteration order. -/
def hashmap.keys {V : Type} (m : hashmap V) : List String := AList.keys m

/-- The entries in iteration order. -/
def hashmap.to_list {V : Type} (m : hashmap V) : List (String × V) :=
  m.entries.map (fun e => (e.1, e.2))

/-- The three template arguments `get_version` is instantiated with. -/
inductive VersionType
  | uint32
  | tes4_version
  | fo4_format
  deriving DecidableEq, Repr

/-- The logical version of an archive. -/
inductive ArchiveVersion
  | tes3
  | tes4
  | fo3
  | sse
  | fo4
  | fo4dx
  deriving DecidableEq, Repr

/-- The value `static_cast<T>(to_underlying(v))`: the ordinal of the logical version
`v` read at the native type `T`. -/
structure native_token where
  type : VersionType
  ordinal_of : ArchiveVersion
  deriving DecidableEq, Repr

namespace libbsa

/-- Embeds `libbsa::file_format`, the answer of the format probe. -/
inductive file_format
  | tes3
  | tes4
  | fo4
  deriving DecidableEq, Repr

/-- Embeds `libbsa::compression_type`. -/
inductive compression_type
  | decompressed
  | compressed
  deriving DecidableEq, Repr

namespace tes3

/-- Embeds `libbsa::tes3::file`: the format has no compression, a file is its bytes. -/
structure file where
  data : Bytes
  deriving DecidableEq, Repr

/-- Embeds `file::set_data`. -/
def file.set_data (_f : file) (data : Bytes) : file :=
  { data := data }

/-- Embeds `libbsa::tes3::archive`: file key to file. -/
abbrev archive := hashmap file

end tes3

namespace tes4

/-- Embeds `libbsa::tes4::version`, what the reader of the hierarchical format returns. -/
inductive version
  | tes4
  | fo3
  | sse
  deriving DecidableEq, Repr

/-- The bits of `libbsa::tes4::archive_flag` the facade names. -/
inductive archive_flag
  | directory_strings
  | file_strings
  | compressed
  deriving DecidableEq, Repr, Fintype

/-- Embeds `libbsa::tes4::file`: the bytes it was given, and the native version it was
compressed for when it was compressed. -/
structure file where
  data : Bytes
  compression : Option native_token
  deriving DecidableEq, Repr

/-- Embeds `file::set_data`. -/
def file.set_data (_f : file) (data : Bytes) : file :=
  { data := data, compression := none }

/-- Embeds `file::compress(version)`. -/
def file.compress (f : file) (v : native_token) : file :=
  { f with compression := some v }

/-- Embeds `file::read(path, version, codec, compression)` once the bytes are off the disk. -/
def file.read (data : Bytes) (v : native_token) (c : compression_type) : file :=
  { data := data, compression := if c = .compressed then some v else none }

/-- Embeds `libbsa::tes4::directory`: file key to file. -/
abbrev directory := hashmap file

/-- Embeds `libbsa::tes4::archive`: the archive flags (a flag word is the set of its bits,
`operator|` their union) and directory key to directory. -/
structure archive where
  archive_flags : Finset archive_flag
  dirs : hashmap directory
  deriving DecidableEq

/-- Embeds `libbsa::tes4::archive{}`: no flag, no directory. -/
def archive.empty : archive := { archive_flags := ∅, dirs := hashmap.empty }

end tes4

namespace fo4

/-- Embeds `libbsa::fo4::format`, what the reader of the flags format returns. -/
inductive format
  | general
  | directx
  deriving DecidableEq, Repr

/-- Embeds `libbsa::fo4::compression_level`. -/
inductive compression_level
  | normal
  deriving DecidableEq, Repr

/-- Embeds `libbsa::fo4::file`: the arguments of the `read` that built it. -/
structure file where
  data : Bytes
  format : native_token
  mip_chunk_width : Nat
  mip_chunk_height : Nat
  level : compression_level
  compression : compression_type
  deriving DecidableEq, Repr

/-- Embeds `libbsa::fo4::archive`: file key to file. -/
abbrev archive := hashmap file

end fo4

end libbsa

/-- What the codec library and the disk decide on their own. -/
structure Codec where
  /-- The key the codec makes of a name handed to `insert`, `find` or `operator[]`. -/
  key : String → String
  /-- Embeds `guess_file_format(path)`. -/
  guess_file_format : Path → Option libbsa.file_format
  /-- Embeds `tes3::archive::read(path)`; `none` when it throws. -/
  read_tes3 : Path → Option libbsa.tes3.archive
  /-- Embeds `tes4::archive::read(path)` with the version it returns; `none` when it throws. -/
  read_tes4 : Path → Option (libbsa.tes4.version × libbsa.tes4.archive)
  /-- Embeds `fo4::archive::read(path)` with the format it returns; `none` when it throws. -/
  read_fo4 : Path → Option (libbsa.fo4.format × libbsa.fo4.archive)
  /-- The bytes of the file at a path; `none` when reading it throws. -/
  read_bytes : Path → Option Bytes

/-! ## `btu::bsa::Archive` -/

/-- Embeds `UnderlyingArchive`: the variant over the three archive representations. -/
inductive UnderlyingArchive
  | tes3 (bsa : libbsa.tes3.archive)
  | tes4 (bsa : libbsa.tes4.archive)
  | fo4 (ba2 : libbsa.fo4.archive)
  deriving DecidableEq

/-- Embeds `UnderlyingFile`: the variant over the three file representations. -/
inductive UnderlyingFile
  | tes3 (f : libbsa.tes3.file)
  | tes4 (f : libbsa.tes4.file)
  | fo4 (f : libbsa.fo4.file)
  deriving DecidableEq, Repr

/-- The alternative a variant holds. -/
inductive Tag
  | tes3
  | tes4
  | fo4
  deriving DecidableEq, Repr, Fintype

/-- The alternative an archive variant holds (`std::holds_alternative`). -/
def UnderlyingArchive.tag : UnderlyingArchive → Tag
  | .tes3 _ => .tes3
  | .tes4 _ => .tes4
  | .fo4 _ => .fo4

/-- The alternative a file variant holds. -/
def UnderlyingFile.tag : UnderlyingFile → Tag
  | .tes3 _ => .tes3
  | .tes4 _ => .tes4
  | .fo4 _ => .fo4

/-- Embeds `get_archive_identifier`. -/
def get_archive_identifier : UnderlyingArchive → String
  | .tes3 _ => "tes3"
  | .tes4 _ => "tes4"
  | .fo4 _ => "fo4"

/-- What a member function of the facade throws. -/
inductive Exception
  /-- Embeds `std::bad_optional_access`: `.value()` on the empty answer of the format probe. -/
  | bad_optional_access
  /-- Whatever a reader of the codec throws. -/
  | codec_read_failure
  /-- Embeds `libbsa::exception("Trying to add x type file to y type bsa")`. -/
  | type_mismatch
  /-- Embeds `std::runtime_error("Mismatch between requested version and variant type")`. -/
  | version_mismatch
  deriving DecidableEq, Repr

/-- The data members of `Archive` (the mutex apart: calls are taken one at a time). -/
structure Archive where
  version_ : ArchiveVersion
  compressed_ : Bool
  archive_ : UnderlyingArchive
  deriving DecidableEq

/-- A call of a member function: the facade it leaves, and what it returned or threw. -/
structure Outcome (α : Type) where
  archive : Archive
  result : Except Exception α

/-- The representation the case labels of the two `switch (version_)` statements
group a logical version under. -/
def representation_of : ArchiveVersion → Tag
  | .tes3 => .tes3
  | .tes4 => .tes4
  | .fo3 => .tes4
  | .sse => .tes4
  | .fo4 => .fo4
  | .fo4dx => .fo4

/-- The template argument the `same_as` test of a case label of `get_version` names. -/
def token_type_of : Tag → VersionType
  | .tes3 => .uint32
  | .tes4 => .tes4_version
  | .fo4 => .fo4_format

/-- Modelled from the spec: `static_cast<ArchiveVersion>` of the version the reader of
the hierarchical format returned.  The enumerators of `ArchiveVersion` are declared
in a header outside `src/`; "the logical version's ordinal encodes the native token
directly". -/
def ArchiveVersion.of_tes4 : libbsa.tes4.version → ArchiveVersion
  | .tes4 => .tes4
  | .fo3 => .fo3
  | .sse => .sse

/-- Modelled from the spec: `static_cast<ArchiveVersion>` of the format the reader of
the flags format returned, under the same sentence as `ArchiveVersion.of_tes4`. -/
def ArchiveVersion.of_fo4 : libbsa.fo4.format → ArchiveVersion
  | .general => .fo4
  | .directx => .fo4dx

namespace Archive

/-- Embeds `Archive::Archive(ArchiveVersion, bool)`. -/
def construct (a_version : ArchiveVersion) (a_compressed : Bool) : Archive :=
  { version_ := a_version
    compressed_ := a_compressed
    archive_ :=
      match a_version with
      | .tes3 => .tes3 hashmap.empty
      | .tes4 | .fo3 | .sse =>
        let flags : Finset libbsa.tes4.archive_flag := {.directory_strings} ∪ {.file_strings}
        let flags := if a_compressed then flags ∪ {.compressed} else flags
        .tes4 { libbsa.tes4.archive.empty with archive_flags := flags }
      | .fo4 | .fo4dx => .fo4 hashmap.empty }

/-- Embeds `Archive::get_version<VersionType>()`. -/
def get_version (a : Archive) (T : VersionType) : Except Exception native_token :=
  let correct : Bool :=
    match a.version_ with
    | .tes3 =>
      let same := decide (T = .uint32)
      same && decide (a.archive_.tag = .tes3)
    | .tes4 | .fo3 | .sse =>
      let same := decide (T = .tes4_version)
      same && decide (a.archive_.tag = .tes4)
    | .fo4 | .fo4dx =>
      let same := decide (T = .fo4_format)
      same && decide (a.archive_.tag = .fo4)
  if !correct then .error .version_mismatch
  else .ok { type := T, ordinal_of := a.version_ }

/-- Embeds `Archive::get_version()`, the accessor. -/
def get_version_tag (a : Archive) : ArchiveVersion := a.version_

/-- Embeds `Archive::get_archive()`. -/
def get_archive (a : Archive) : UnderlyingArchive := a.archive_

/-- Embeds `Archive::file_count()`: `size()` of the alternative held. -/
def file_count (a : Archive) : Nat :=
  match a.archive_ with
  | .tes3 bsa => bsa.size
  | .tes4 bsa => bsa.dirs.size
  | .fo4 ba2 => ba2.size

/-- Embeds `Archive::read(Path)`. -/
def read (cx : Codec) (a : Archive) (a_path : Path) : Outcome ArchiveVersion :=
  match cx.guess_file_format a_path with
  | none => ⟨a, .error .bad_optional_access⟩
  | some .fo4 =>
    match cx.read_fo4 a_path with
    | none => ⟨a, .error .codec_read_failure⟩
    | some (format, archive) =>
      let v := ArchiveVersion.of_fo4 format
      ⟨{ a with archive_ := .fo4 archive, version_ := v }, .ok v⟩
  | some .tes3 =>
    match cx.read_tes3 a_path with
    | none => ⟨a, .error .codec_read_failure⟩
    | some archive => ⟨{ a with archive_ := .tes3 archive, version_ := .tes3 }, .ok .tes3⟩
  | some .tes4 =>
    match cx.read_tes4 a_path with
    | none => ⟨a, .error .codec_read_failure⟩
    | some (format, archive) =>
      let v := ArchiveVersion.of_tes4 format
      ⟨{ a with archive_ := .tes4 archive, version_ := v }, .ok v⟩

/-- The tes4 arm of the `adder` of `add_file`: the directory under the key of the
parent path is looked up and created empty when `find` reaches `end()`, then the
file goes into the directory `operator[]` gives, under the key of the filename. -/
def add_file_tes4 (cx : Codec) (bsa : libbsa.tes4.archive) (a_relative : Path)
    (f : libbsa.tes4.file) : libbsa.tes4.archive :=
  let key := cx.key (generic_string (lexically_normal (parent_path a_relative)))
  let dirs := if bsa.dirs.find key = none then bsa.dirs.insert key hashmap.empty else bsa.dirs
  match dirs.find key with
  | none => { bsa with dirs := dirs }
  | some d =>
    let name := cx.key (generic_string (lexically_normal (filename a_relative)))
    { bsa with dirs := dirs.assign key (d.insert name f) }

/-- Embeds `Archive::add_file(const common::Path &, UnderlyingFile)`. -/
def add_file (cx : Codec) (a : Archive) (a_relative : Path) (file : UnderlyingFile) :
    Outcome Unit :=
  match a.archive_, file with
  | .tes3 bsa, .tes3 f =>
    ⟨{ a with archive_ := .tes3 (bsa.insert (cx.key (generic_string a_relative)) f) }, .ok ()⟩
  | .tes4 bsa, .tes4 f =>
    ⟨{ a with archive_ := .tes4 (add_file_tes4 cx bsa a_relative f) }, .ok ()⟩
  | .fo4 ba2, .fo4 f =>
    let key := cx.key (generic_string (lexically_normal a_relative))
    ⟨{ a with archive_ := .fo4 (ba2.insert key f) }, .ok ()⟩
  | _, _ => ⟨a, .error .type_mismatch⟩

/-- The `compress` local of the two other overloads of `add_file`. -/
def compress_of (a : Archive) : libbsa.compression_type :=
  if a.compressed_ then .compressed else .decompressed

/-- Embeds `Archive::add_file(const Path &a_root, const Path &a_path)`. -/
def add_file_from_disk (cx : Codec) (a : Archive) (a_root a_path : Path) : Outcome Unit :=
  let relative := lexically_normal (lexically_relative a_path a_root)
  let compress := compress_of a
  match a.archive_ with
  | .tes3 _ =>
    match cx.read_bytes a_path with
    | none => ⟨a, .error .codec_read_failure⟩
    | some data => add_file cx a relative (.tes3 { data := data })
  | .tes4 _ =>
    match get_version a .tes4_version with
    | .error e => ⟨a, .error e⟩
    | .ok version =>
      match cx.read_bytes a_path with
      | none => ⟨a, .error .codec_read_failure⟩
      | some data => add_file cx a relative (.tes4 (libbsa.tes4.file.read data version compress))
  | .fo4 _ =>
    match get_version a .fo4_format with
    | .error e => ⟨a, .error e⟩
    | .ok format =>
      match cx.read_bytes a_path with
      | none => ⟨a, .error .codec_read_failure⟩
      | some data =>
        add_file cx a relative
          (.fo4 { data := data, format := format, mip_chunk_width := 512,
                  mip_chunk_height := 512, level := .normal, compression := compress })

/-- The file object `Archive::add_file(const Path &, std::vector<std::byte>)` builds
before it hands it to the overload above, or the exception `get_version` throws. -/
def build_file (a : Archive) (a_data : Bytes) : Except Exception UnderlyingFile :=
  match a.archive_ with
  | .tes3 _ =>
    let f : libbsa.tes3.file := { data := [] }
    .ok (.tes3 (f.set_data a_data))
  | .tes4 _ =>
    let f : libbsa.tes4.file := { data := [], compression := none }
    match get_version a .tes4_version with
    | .error e => .error e
    | .ok version =>
      let f := f.set_data a_data
      .ok (.tes4 (if a.compressed_ then f.compress version else f))
  | .fo4 _ =>
    let compress := compress_of a
    match get_version a .fo4_format with
    | .error e => .error e
    | .ok format =>
      .ok (.fo4 { data := a_data, format := format, mip_chunk_width := 512,
                  mip_chunk_height := 512, level := .normal, compression := compress })

/-- Embeds `Archive::add_file(const Path &relative, std::vector<std::byte> a_data)`. -/
def add_file_data (cx : Codec) (a : Archive) (relative : Path) (a_data : Bytes) :
    Outcome Unit :=
  match build_file a a_data with
  | .error e => ⟨a, .error e⟩
  | .ok f => add_file cx a relative f

end Archive

/-! ## Reachable facades -/

/-- The facades a caller can hold: built by one of the two constructors (the one
taking a path runs `read` on the default-initialised members `a0` and leaves no
object when `read` throws), then taken through calls of `add_file` and `read`,
each of which leaves the facade of its outcome whether it returned or threw. -/
inductive Reachable (cx : Codec) : Archive → Prop
  | construct (a_version : ArchiveVersion) (a_compressed : Bool) :
      Reachable cx (Archive.construct a_version a_compressed)
  | construct_read (a0 : Archive) (a_path : Path) (v : ArchiveVersion) :
      (Archive.read cx a0 a_path).result = .ok v →
      Reachable cx (Archive.read cx a0 a_path).archive
  | add_file (a : Archive) (a_relative : Path) (file : UnderlyingFile) :
      Reachable cx a → Reachable cx (Archive.add_file cx a a_relative file).archive
  | add_file_from_disk (a : Archive) (a_root a_path : Path) :
      Reachable cx a → Reachable cx (Archive.add_file_from_disk cx a a_root a_path).archive
  | add_file_data (a : Archive) (relative : Path) (a_data : Bytes) :
      Reachable cx a → Reachable cx (Archive.add_file_data cx a relative a_data).archive
  | read (a : Archive) (a_path : Path) :
      Reachable cx a → Reachable cx (Archive.read cx a a_path).archive

/-- Modelled from the spec: the key normalisation of the codec library, which is not
part of this repository; a virtual path is "case-normalized, using forward-slash
separators". -/
def normalize_key (s : String) : String :=
  String.mk (s.data.map (fun c => if c = Char.ofNat 92 then '/' else c.toLower))

/-- A codec with the key normalisation of the spec and a disk that holds one
archive of the hierarchical format, `in.bsa`, and one plain file, `data/a.txt`. -/
def sample_codec : Codec where
  key := normalize_key
  guess_file_format := fun p => if p = "in.bsa" then some .tes4 else none
  read_tes3 := fun _ => none
  read_tes4 := fun p => if p = "in.bsa" then some (.sse, libbsa.tes4.archive.empty) else none
  read_fo4 := fun _ => none
  read_bytes := fun p => if p = "data/a.txt" then some [104, 105] else none

/-- The key of the top-level entry an insertion at a path goes under, read off the
three arms of the `adder` of `add_file`. -/
def top_level_key (cx : Codec) : Tag → Path → String
  | .tes3, p => cx.key (generic_string p)
  | .tes4, p => cx.key (generic_string (lexically_normal (parent_path p)))
  | .fo4, p => cx.key (generic_string (lexically_normal p))

/-- The key of a file inside its directory, from the tes4 arm of the `adder`. -/
def file_key (cx : Codec) (p : Path) : String :=
  cx.key (generic_string (lexically_normal (filename p)))

/-- Byte insertions one after the other, up to the first that throws. -/
def add_all (cx : Codec) (a : Archive) : List (Path × Bytes) → Except Exception Archive
  | [] => .ok a
  | (p, data) :: rest =>
    match (Archive.add_file_data cx a p data).result with
    | .error e => .error e
    | .ok _ => add_all cx (Archive.add_file_data cx a p data).archive rest

/-! ## `Archive::unpack` -/

/-- The part of the filesystem `unpack` acts on. -/
structure Disk where
  directories : List Path
  files : List (Path × Bytes)
  deriving DecidableEq, Repr

/-- A filesystem with nothing on it. -/
def Disk.empty : Disk := { directories := [], files := [] }

/-- Embeds `std::filesystem::exists`. -/
def Disk.has (d : Disk) (p : Path) : Bool :=
  d.directories.contains p || d.files.any (fun f => f.1 == p)

/-- A directory path preceded by its ancestors, outermost first. -/
def directory_chain : Nat → Path → List Path
  | 0, _ => []
  | fuel + 1, p =>
    if p = "" ∨ parent_path p = p then [] else directory_chain fuel (parent_path p) ++ [p]

/-- Embeds `std::filesystem::create_directories`: the directory and each missing ancestor. -/
def Disk.create_directories (d : Disk) (p : Path) : Disk :=
  { d with directories :=
      d.directories ++ (directory_chain (p.length + 1) p).filter (fun q => !d.has q) }

/-- The `make_dir` lambda of `unpack`. -/
def make_dir (d : Disk) (p : Path) : Disk :=
  let dir := parent_path p
  if !d.has dir then d.create_directories dir else d

/-- The `write` of a file object of the codec: its bytes, decompressed, at the path. -/
def Disk.write (d : Disk) (p : Path) (data : Bytes) : Disk :=
  { d with files := d.files.filter (fun f => f.1 != p) ++ [(p, data)] }

/-- Modelled from the spec: `virtual_to_local_path` of a single-level key, declared in
a header outside `src/`: "virtual separators and case mapped to the local
filesystem's conventions".  On POSIX the separator is the forward slash. -/
def virtual_to_local_path (key : String) : Path :=
  String.mk (key.data.map (fun c => if c = Char.ofNat 92 then '/' else c))

/-- Modelled from the spec: `virtual_to_local_path` of a directory key and a file key,
declared in a header outside `src/`: the local form of the directory joined with
the local form of the file name. -/
def virtual_to_local_path_in (dir_key file_key : String) : Path :=
  path_append (virtual_to_local_path dir_key) (virtual_to_local_path file_key)

/-- The filesystem `unpack` has reached, and the exception that stopped it, if any. -/
structure Unpacked where
  disk : Disk
  thrown : Option Exception
  deriving DecidableEq, Repr

/-- One entry of `unpack`: nothing once an exception is in flight. -/
def Unpacked.next (s : Unpacked) (entry : Disk → Except Exception Disk) : Unpacked :=
  match s.thrown with
  | some _ => s
  | none =>
    match entry s.disk with
    | .ok d => { disk := d, thrown := none }
    | .error e => { disk := s.disk, thrown := some e }

namespace Archive

/-- The body `unpack` runs on an entry of the flat archive. -/
def unpack_tes3_entry (out_path : Path) (pair : String × libbsa.tes3.file) (d : Disk) :
    Except Exception Disk :=
  let path := path_append out_path (virtual_to_local_path pair.1)
  .ok ((make_dir d path).write path pair.2.data)

/-- The body `unpack` runs on a file of a directory of the hierarchical archive. -/
def unpack_tes4_entry (a : Archive) (out_path : Path) (dir_key : String)
    (file : String × libbsa.tes4.file) (d : Disk) : Except Exception Disk :=
  let path := path_append out_path (virtual_to_local_path_in dir_key file.1)
  match get_version a .tes4_version with
  | .error e => .error e
  | .ok _ver => .ok ((make_dir d path).write path file.2.data)

/-- The body `unpack` runs on an entry of the flags archive. -/
def unpack_fo4_entry (a : Archive) (out_path : Path) (pair : String × libbsa.fo4.file)
    (d : Disk) : Except Exception Disk :=
  let path := path_append out_path (virtual_to_local_path pair.1)
  match get_version a .fo4_format with
  | .error e => .error e
  | .ok _ver => .ok ((make_dir d path).write path pair.2.data)

/-- Embeds `Archive::unpack(const Path &)`, the entries taken in iteration order. -/
def unpack (a : Archive) (out_path : Path) (disk : Disk) : Unpacked :=
  match a.archive_ with
  | .tes3 bsa =>
    bsa.to_list.foldl (fun s pair => s.next (unpack_tes3_entry out_path pair))
      { disk := disk, thrown := none }
  | .tes4 bsa =>
    bsa.dirs.to_list.foldl
      (fun s dir =>
        dir.2.to_list.foldl (fun s file => s.next (unpack_tes4_entry a out_path dir.1 file)) s)
      { disk := disk, thrown := none }
  | .fo4 ba2 =>
    ba2.to_list.foldl (fun s pair => s.next (unpack_fo4_entry a out_path pair))
      { disk := disk, thrown := none }

end Archive

/-! ## `btu::tex::error_from_hresult` -/

namespace tex

/-- Embeds `TextureErr`, the enumerators `TextureErrCategory::message` switches over. -/
inductive TextureErr
  | Success
  | Unknown
  | BadInput
  | MemoryAllocation
  | WriteFailure
  | ReadFailure
  deriving DecidableEq, Repr

/-- The category of a `std::error_code`. -/
inductive Category
  | system
  | texture_err
  | failure_source
  | other (id : Nat)
  deriving DecidableEq, Repr

/-- Embeds `std::error_code`: a value and its category. -/
structure error_code where
  value : Int
  category : Category
  deriving DecidableEq, Repr

/-- Embeds `std::source_location`, kept as given. -/
abbrev source_location := String

/-- Embeds `Error`: an error code and the place it was raised at. -/
structure Error where
  code : error_code
  loc : source_location
  deriving DecidableEq, Repr

/-- Embeds `make_error_code(TextureErr)`; `ord` gives the enumerator values, which are
declared in a header outside `src/`. -/
def make_error_code (ord : TextureErr → Int) (e : TextureErr) : error_code :=
  { value := ord e, category := .texture_err }

/-- Embeds `static_cast<uint64_t>` of an `int64_t`. -/
def to_uint64 (hr : Int) : Nat := (hr % 2 ^ 64).toNat

/-- Embeds `static_cast<int32_t>` of a `uint64_t`. -/
def to_int32 (u : Nat) : Int :=
  if u % 2 ^ 32 < 2 ^ 31 then ((u % 2 ^ 32 : Nat) : Int) else ((u % 2 ^ 32 : Nat) : Int) - 2 ^ 32

/-- Embeds `error_from_hresult` as built without `_WIN32`. -/
def error_from_hresult (ord : TextureErr → Int) (hr : Int) (default_err : error_code)
    (loc : source_location) : Error :=
  let make_error := fun (win32_code : Int) =>
    ({ code := { value := win32_code, category := .system }, loc := loc } : Error)
  let win32_valid : Nat := 0x80070000
  let mask : Nat := 0xFFFF0000
  if to_uint64 hr &&& mask = win32_valid then
    make_error (to_int32 (to_uint64 hr &&& 0xFFFF))
  else if hr = 0 then
    { code := make_error_code ord .Success, loc := loc }
  else
    { code := default_err, loc := loc }

end tex

/-- The files a facade of the hierarchical representation lists under a directory
key and a file key, one per matching entry. -/
def files_at (a : Archive) (dir_key file_key : String) : List libbsa.tes4.file :=
  match a.archive_ with
  | .tes4 bsa =>
    (bsa.dirs.to_list.filter (fun d => d.1 = dir_key)).foldr
      (fun d acc => (d.2.to_list.filter (fun f => f.1 = file_key)).map (fun f => f.2) ++ acc) []
  | _ => []

/-- The files a facade of a single-level representation lists under a key, as the
variant of their representation. -/
def entries_at (a : Archive) (key : String) : List UnderlyingFile :=
  match a.archive_ with
  | .tes3 bsa => (bsa.to_list.filter (fun f => f.1 = key)).map (fun f => .tes3 f.2)
  | .tes4 _ => []
  | .fo4 ba2 => (ba2.to_list.filter (fun f => f.1 = key)).map (fun f => .fo4 f.2)

/-- The keys of the top-level entries of a facade, in iteration order. -/
def top_keys (a : Archive) : List String :=
  match a.archive_ with
  | .tes3 bsa => bsa.keys
  | .tes4 bsa => bsa.dirs.keys
  | .fo4 ba2 => ba2.keys

/-- The directories of a facade of the hierarchical representation, each with the
files it holds, in iteration order. -/
def directories_of (a : Archive) : List (String × List (String × libbsa.tes4.file)) :=
  match a.archive_ with
  | .tes4 bsa => bsa.dirs.to_list.map (fun d => (d.1, d.2.to_list))
  | _ => []

/-- The bytes of the text `hello`. -/
def hello : Bytes := [104, 101, 108, 108, 111]

/-! ## `btu::tex::FailureSourceCategory::equivalent` -/

namespace tex

/-- Embeds `FailureSource`, the enumerators `FailureSourceCategory::message` and
`FailureSourceCategory::equivalent` switch over. -/
inductive FailureSource
  | BadUserInput
  | SystemError
  deriving DecidableEq, Repr

/-- Embeds `ec == TextureErr::X`: the enumerator becomes an error code through
`make_error_code`, and two error codes are equal when their categories and their
values are. -/
def equals_enum (ord : TextureErr → Int) (ec : error_code) (e : TextureErr) : Bool :=
  decide (ec = make_error_code ord e)

/-- Embeds `FailureSourceCategory::equivalent`; `ord` and `cond_of` give the values of
the enumerators of `TextureErr` and of `FailureSource`, which are declared in a
header outside `src/`. -/
def equivalent (ord : TextureErr → Int) (cond_of : FailureSource → Int) (ec : error_code)
    (cond : Int) : Bool :=
  if cond = cond_of .BadUserInput then equals_enum ord ec .BadInput
  else if cond = cond_of .SystemError then
    equals_enum ord ec .Unknown || equals_enum ord ec .MemoryAllocation
  else false

/-- Enumerator values for `TextureErr` in the order `message` lists them, from 0. -/
def sample_ord : TextureErr → Int
  | .Success => 0
  | .Unknown => 1
  | .BadInput => 2
  | .MemoryAllocation => 3
  | .WriteFailure => 4
  | .ReadFailure => 5

/-- Enumerator values for `FailureSource` in the order `message` lists them, from 1. -/
def sample_cond_of : FailureSource → Int
  | .BadUserInput => 1
  | .SystemError => 2

end tex

/-! ## Lemmas on the facade -/

/-- The tag test of `add_file` leaves version and compression flag alone and keeps
the alternative the archive holds. -/
theorem add_file_frame (cx : Codec) (a : Archive) (p : Path) (file : UnderlyingFile) :
    (Archive.add_file cx a p file).archive.version_ = a.version_ ∧
    (Archive.add_file cx a p file).archive.compressed_ = a.compressed_ ∧
    (Archive.add_file cx a p file).archive.archive_.tag = a.archive_.tag := by
  obtain ⟨v, c, u⟩ := a
  cases u <;> cases file <;> simp [Archive.add_file, UnderlyingArchive.tag]

/-- The overload taking bytes keeps version, compression flag and alternative. -/
theorem add_file_data_frame (cx : Codec) (a : Archive) (p : Path) (data : Bytes) :
    (Archive.add_file_data cx a p data).archive.version_ = a.version_ ∧
    (Archive.add_file_data cx a p data).archive.compressed_ = a.compressed_ ∧
    (Archive.add_file_data cx a p data).archive.archive_.tag = a.archive_.tag := by
  unfold Archive.add_file_data
  cases h : Archive.build_file a data with
  | error e => simp
  | ok f => exact add_file_frame cx a p f

/-- The overload reading the disk keeps version, compression flag and alternative. -/
theorem add_file_from_disk_frame (cx : Codec) (a : Archive) (root path : Path) :
    (Archive.add_file_from_disk cx a root path).archive.version_ = a.version_ ∧
    (Archive.add_file_from_disk cx a root path).archive.compressed_ = a.compressed_ ∧
    (Archive.add_file_from_disk cx a root path).archive.archive_.tag = a.archive_.tag := by
  unfold Archive.add_file_from_disk
  cases hu : a.archive_ with
  | tes3 bsa =>
    simp only
    cases cx.read_bytes path with
    | none => simp [hu]
    | some data => simpa [hu] using add_file_frame cx a _ _
  | tes4 bsa =>
    simp only
    cases Archive.get_version a .tes4_version with
    | error e => simp [hu]
    | ok version =>
      simp only
      cases cx.read_bytes path with
      | none => simp [hu]
      | some data => simpa [hu] using add_file_frame cx a _ _
  | fo4 ba2 =>
    simp only
    cases Archive.get_version a .fo4_format with
    | error e => simp [hu]
    | ok format =>
      simp only
      cases cx.read_bytes path with
      | none => simp [hu]
      | some data => simpa [hu] using add_file_frame cx a _ _

/-- After `read`, the alternative held is the one of the version stored, provided
it was so before: a throwing `read` changes nothing, a returning one sets both. -/
theorem read_keeps_invariant (cx : Codec) (a : Archive) (path : Path)
    (h : a.archive_.tag = representation_of a.version_) :
    (Archive.read cx a path).archive.archive_.tag
      = representation_of (Archive.read cx a path).archive.version_ := by
  unfold Archive.read
  cases cx.guess_file_format path with
  | none => exact h
  | some fmt =>
    cases fmt with
    | tes3 =>
      simp only
      cases cx.read_tes3 path with
      | none => exact h
      | some archive => rfl
    | tes4 =>
      simp only
      cases cx.read_tes4 path with
      | none => exact h
      | some r => obtain ⟨format, archive⟩ := r; cases format <;> rfl
    | fo4 =>
      simp only
      cases cx.read_fo4 path with
      | none => exact h
      | some r => obtain ⟨format, archive⟩ := r; cases format <;> rfl

/-- A `read` that returns sets archive and version together, whatever was there. -/
theorem read_ok_invariant (cx : Codec) (a : Archive) (path : Path) (v : ArchiveVersion)
    (h : (Archive.read cx a path).result = .ok v) :
    (Archive.read cx a path).archive.archive_.tag
      = representation_of (Archive.read cx a path).archive.version_ := by
  unfold Archive.read at h ⊢
  cases hg : cx.guess_file_format path with
  | none => simp [hg] at h
  | some fmt =>
    cases fmt with
    | tes3 =>
      simp only [hg] at h ⊢
      cases hr : cx.read_tes3 path with
      | none => simp [hr] at h
      | some archive => rfl
    | tes4 =>
      simp only [hg] at h ⊢
      cases hr : cx.read_tes4 path with
      | none => simp [hr] at h
      | some r => obtain ⟨format, archive⟩ := r; cases format <;> rfl
    | fo4 =>
      simp only [hg] at h ⊢
      cases hr : cx.read_fo4 path with
      | none => simp [hr] at h
      | some r => obtain ⟨format, archive⟩ := r; cases format <;> rfl

/-- Every reachable facade holds the alternative of its version. -/
theorem reachable_invariant (cx : Codec) (a : Archive) (h : Reachable cx a) :
    a.archive_.tag = representation_of a.version_ := by
  induction h with
  | construct v c => cases v <;> rfl
  | construct_read a0 path v hv => exact read_ok_invariant cx a0 path v hv
  | add_file a p file _ ih =>
    obtain ⟨hv, _, ht⟩ := add_file_frame cx a p file
    rw [hv, ht]; exact ih
  | add_file_from_disk a root path _ ih =>
    obtain ⟨hv, _, ht⟩ := add_file_from_disk_frame cx a root path
    rw [hv, ht]; exact ih
  | add_file_data a p data _ ih =>
    obtain ⟨hv, _, ht⟩ := add_file_data_frame cx a p data
    rw [hv, ht]; exact ih
  | read a path _ ih => exact read_keeps_invariant cx a path ih

/-! ## C1: the representation invariant -/

/-- C1. `Archive(V, c)` holds the representation mapped from `V` (tes3 the flat one;
tes4, fo3 and sse the hierarchical one; fo4 and fo4dx the flags one), and every
facade reachable from a constructor through calls of the three `add_file`
overloads, returning or throwing, and calls of `read` holds the alternative of
the version it stores. -/
theorem archive_tag_matches_version (cx : Codec) :
    (∀ c : Bool,
      (Archive.construct .tes3 c).archive_.tag = .tes3 ∧
      (Archive.construct .tes4 c).archive_.tag = .tes4 ∧
      (Archive.construct .fo3 c).archive_.tag = .tes4 ∧
      (Archive.construct .sse c).archive_.tag = .tes4 ∧
      (Archive.construct .fo4 c).archive_.tag = .fo4 ∧
      (Archive.construct .fo4dx c).archive_.tag = .fo4) ∧
    (∀ (V : ArchiveVersion) (c : Bool),
      (Archive.construct V c).archive_.tag = representation_of V ∧
      (Archive.construct V c).version_ = V) ∧
    (∀ a : Archive, Reachable cx a → a.archive_.tag = representation_of a.version_) := by
  refine ⟨fun c => ⟨rfl, rfl, rfl, rfl, rfl, rfl⟩, fun V c => ?_, reachable_invariant cx⟩
  cases V <;> exact ⟨rfl, rfl⟩

/-- C1 at a facade read from `in.bsa`, then given a file of a foreign tag (which
throws), bytes, a file from the disk, and read again. -/
theorem archive_tag_matches_version_witness :
    Reachable sample_codec
      (Archive.read sample_codec
        (Archive.add_file_from_disk sample_codec
          (Archive.add_file_data sample_codec
            (Archive.add_file sample_codec
              (Archive.read sample_codec (Archive.construct .tes3 true) "in.bsa").archive
              "a/b" (.tes3 { data := [1] })).archive
            "sub/dir/file.txt" [104, 105]).archive
          "data" "data/a.txt").archive
        "in.bsa").archive ∧
    (Archive.read sample_codec
        (Archive.add_file_from_disk sample_codec
          (Archive.add_file_data sample_codec
            (Archive.add_file sample_codec
              (Archive.read sample_codec (Archive.construct .tes3 true) "in.bsa").archive
              "a/b" (.tes3 { data := [1] })).archive
            "sub/dir/file.txt" [104, 105]).archive
          "data" "data/a.txt").archive
        "in.bsa").archive.archive_.tag = .tes4 :=
  have h : Reachable sample_codec _ :=
    Reachable.read _ "in.bsa"
      (Reachable.add_file_from_disk _ "data" "data/a.txt"
        (Reachable.add_file_data _ "sub/dir/file.txt" [104, 105]
          (Reachable.add_file _ "a/b" (.tes3 { data := [1] })
            (Reachable.construct_read (Archive.construct .tes3 true) "in.bsa" .sse rfl))))
  ⟨h, ((archive_tag_matches_version sample_codec).2.2 _ h).trans (by decide)⟩

/-! ## C2: version resolution -/

/-- C2. On `Archive(V, c)`, `get_version<T>()` returns exactly when `T` is the token
type of the representation of `V` (`uint32` for tes3; `tes4::version` for tes4,
fo3, sse; `fo4::format` for fo4, fo4dx); it then returns the ordinal of `V` read
at `T`, and throws the mismatch error for every other `T`. -/
theorem get_version_resolves (V : ArchiveVersion) (c : Bool) (T : VersionType) :
    ((∃ tok, Archive.get_version (Archive.construct V c) T = .ok tok)
        ↔ T = token_type_of (representation_of V)) ∧
    Archive.get_version (Archive.construct V c) T
      = (if T = token_type_of (representation_of V)
          then .ok { type := T, ordinal_of := V } else .error .version_mismatch) ∧
    token_type_of (representation_of V)
      = (match V with
          | .tes3 => VersionType.uint32
          | .tes4 => VersionType.tes4_version
          | .fo3 => VersionType.tes4_version
          | .sse => VersionType.tes4_version
          | .fo4 => VersionType.fo4_format
          | .fo4dx => VersionType.fo4_format) := by
  cases V <;> cases T <;>
    simp [Archive.get_version, Archive.construct, UnderlyingArchive.tag, token_type_of,
      representation_of]

/-! ## C3: the cross-type guard -/

/-- C3. A file object whose tag differs from the tag of the archive (6 of the 9 pairs
of tags) makes `add_file` throw the type-mismatch error and leaves the facade
as it was: same entries, same version, same compression flag. -/
theorem add_file_foreign_tag (cx : Codec) (a : Archive) (a_relative : Path)
    (file : UnderlyingFile) (h : file.tag ≠ a.archive_.tag) :
    (Archive.add_file cx a a_relative file).result = .error .type_mismatch ∧
    (Archive.add_file cx a a_relative file).archive = a ∧
    ((Finset.univ : Finset (Tag × Tag)).filter (fun p => p.1 ≠ p.2)).card = 6 ∧
    (Finset.univ : Finset (Tag × Tag)).card = 9 := by
  refine ⟨?_, ?_, by decide, by decide⟩
  · obtain ⟨v, c, u⟩ := a
    cases u <;> cases file <;> first | rfl | exact absurd rfl h
  · obtain ⟨v, c, u⟩ := a
    cases u <;> cases file <;> first | rfl | exact absurd rfl h

/-- C3 at a flat archive holding one entry and a file object of the hierarchical
format. -/
theorem add_file_foreign_tag_witness :
    (Archive.add_file sample_codec
        (Archive.add_file_data sample_codec (Archive.construct .tes3 false) "a.txt" [1]).archive
        "sub/b.txt" (.tes4 { data := [2], compression := none })).result
      = .error .type_mismatch ∧
    (Archive.add_file sample_codec
        (Archive.add_file_data sample_codec (Archive.construct .tes3 false) "a.txt" [1]).archive
        "sub/b.txt" (.tes4 { data := [2], compression := none })).archive
      = (Archive.add_file_data sample_codec (Archive.construct .tes3 false) "a.txt" [1]).archive :=
  have h := add_file_foreign_tag sample_codec
    (Archive.add_file_data sample_codec (Archive.construct .tes3 false) "a.txt" [1]).archive
    "sub/b.txt" (.tes4 { data := [2], compression := none }) (by decide)
  ⟨h.1, h.2.1⟩

/-! ## Lemmas on the container -/

theorem dlookup_kreplace_self {α : Type} {β : α → Type} [DecidableEq α] (a : α) (b : β a) :
    ∀ l : List (Sigma β), a ∈ l.keys → List.dlookup a (List.kreplace a b l) = some b
  | [], h => by simp at h
  | ⟨a1, b1⟩ :: tl, h => by
    by_cases e : a = a1
    · subst e
      have hr : List.kreplace a b (⟨a, b1⟩ :: tl) = ⟨a, b⟩ :: tl := by
        unfold List.kreplace
        rw [List.lookmap_cons_some]
        simp
      rw [hr, List.dlookup_cons_eq]
    · have hr : List.kreplace a b (⟨a1, b1⟩ :: tl) = ⟨a1, b1⟩ :: List.kreplace a b tl := by
        unfold List.kreplace
        rw [List.lookmap_cons_none]
        simp [e]
      rw [hr, List.dlookup_cons_ne _ _ e]
      apply dlookup_kreplace_self a b tl
      simpa [e] using h

theorem dlookup_kreplace_ne {α : Type} {β : α → Type} [DecidableEq α] (a a' : α) (b : β a)
    (hne : a' ≠ a) :
    ∀ l : List (Sigma β), List.dlookup a' (List.kreplace a b l) = List.dlookup a' l
  | [] => rfl
  | ⟨a1, b1⟩ :: tl => by
    by_cases e : a = a1
    · subst e
      have hr : List.kreplace a b (⟨a, b1⟩ :: tl) = ⟨a, b⟩ :: tl := by
        unfold List.kreplace
        rw [List.lookmap_cons_some]
        simp
      rw [hr, List.dlookup_cons_ne _ ⟨a, b⟩ hne, List.dlookup_cons_ne _ ⟨a, b1⟩ hne]
    · have hr : List.kreplace a b (⟨a1, b1⟩ :: tl) = ⟨a1, b1⟩ :: List.kreplace a b tl := by
        unfold List.kreplace
        rw [List.lookmap_cons_none]
        simp [e]
      rw [hr]
      by_cases e' : a' = a1
      · subst e'
        rw [List.dlookup_cons_eq, List.dlookup_cons_eq]
      · rw [List.dlookup_cons_ne _ _ e', List.dlookup_cons_ne _ _ e']
        exact dlookup_kreplace_ne a a' b hne tl

theorem filter_key_eq {α : Type} {β : α → Type} [DecidableEq α] (k : α) :
    ∀ l : List (Sigma β), l.NodupKeys →
      l.filter (fun e => decide (e.1 = k)) = ((List.dlookup k l).map (Sigma.mk k)).toList
  | [], _ => rfl
  | ⟨a1, b1⟩ :: tl, nd => by
    have ⟨hn, ndt⟩ := List.nodupKeys_cons.1 nd
    by_cases e : a1 = k
    · subst e
      have h0 : List.dlookup a1 tl = none := List.dlookup_eq_none.2 hn
      have ih := filter_key_eq a1 tl ndt
      rw [h0] at ih
      simp [List.dlookup_cons_eq, ih]
    · have e' : k ≠ a1 := fun h => e h.symm
      rw [List.dlookup_cons_ne _ _ e']
      simp [e, filter_key_eq k tl ndt]

theorem hashmap.find_empty {V : Type} (k : String) : (hashmap.empty : hashmap V).find k = none :=
  rfl

theorem hashmap.find_insert {V : Type} (m : hashmap V) (k : String) (v : V) :
    (m.insert k v).find k = some v :=
  AList.lookup_insert m

theorem hashmap.find_insert_ne {V : Type} (m : hashmap V) (k k' : String) (v : V)
    (h : k' ≠ k) : (m.insert k v).find k' = m.find k' :=
  AList.lookup_insert_ne h

theorem hashmap.insert_insert {V : Type} (m : hashmap V) (k : String) (v w : V) :
    (m.insert k v).insert k w = m.insert k w :=
  AList.insert_insert m

theorem hashmap.keys_nodup {V : Type} (m : hashmap V) : m.keys.Nodup :=
  AList.keys_nodup m

theorem hashmap.size_eq_keys {V : Type} (m : hashmap V) : m.size = m.keys.length := by
  simp [hashmap.size, hashmap.keys, AList.keys, List.keys]

theorem hashmap.mem_keys_iff {V : Type} (m : hashmap V) (k : String) :
    k ∈ m.keys ↔ m.find k ≠ none := by
  unfold hashmap.keys hashmap.find
  rw [← AList.mem_keys, ne_eq, AList.lookup_eq_none, not_not]

theorem hashmap.keys_insert {V : Type} (m : hashmap V) (k : String) (v : V) :
    (m.insert k v).keys = k :: m.keys.erase k :=
  AList.keys_insert m

theorem hashmap.keys_assign {V : Type} (m : hashmap V) (k : String) (v : V) :
    (m.assign k v).keys = m.keys :=
  @AList.keys_replace String (fun _ => V) _ k v m

theorem hashmap.size_insert {V : Type} (m : hashmap V) (k : String) (v : V) :
    (m.insert k v).size = if k ∈ m.keys then m.size else m.size + 1 := by
  rw [hashmap.size_eq_keys, hashmap.size_eq_keys, hashmap.keys_insert]
  by_cases hk : k ∈ m.keys
  · have hpos := List.length_pos_of_mem hk
    simp [hk, List.length_erase_of_mem hk]
    omega
  · simp [hk, List.erase_of_not_mem hk]

theorem hashmap.size_assign {V : Type} (m : hashmap V) (k : String) (v : V) :
    (m.assign k v).size = m.size := by
  rw [hashmap.size_eq_keys, hashmap.size_eq_keys, hashmap.keys_assign]

theorem hashmap.find_assign {V : Type} (m : hashmap V) (k : String) (v : V)
    (h : m.find k ≠ none) : (m.assign k v).find k = some v := by
  have hk : k ∈ m.keys := (hashmap.mem_keys_iff m k).2 h
  exact @dlookup_kreplace_self String (fun _ => V) _ k v m.entries hk

theorem hashmap.find_assign_ne {V : Type} (m : hashmap V) (k k' : String) (v : V)
    (h : k' ≠ k) : (m.assign k v).find k' = m.find k' :=
  @dlookup_kreplace_ne String (fun _ => V) _ k k' v h m.entries

theorem hashmap.to_list_filter {V : Type} (m : hashmap V) (k : String) :
    m.to_list.filter (fun e => decide (e.1 = k)) = ((m.find k).map (fun v => (k, v))).toList := by
  unfold hashmap.to_list hashmap.find AList.lookup
  rw [List.filter_map]
  have h := filter_key_eq k m.entries m.nodupKeys
  have hf : ((fun e : String × V => decide (e.1 = k)) ∘ fun e : (_ : String) × V => (e.1, e.2))
      = fun e => decide (e.1 = k) := rfl
  rw [hf, h]
  cases List.dlookup k m.entries <;> rfl

/-! ## Lemmas on insertion -/

/-- On a facade that holds the alternative of its version, `get_version` returns for
the token type of that alternative. -/
theorem get_version_ok (a : Archive) (h : a.archive_.tag = representation_of a.version_) :
    Archive.get_version a (token_type_of a.archive_.tag)
      = .ok { type := token_type_of a.archive_.tag, ordinal_of := a.version_ } := by
  obtain ⟨v, c, u⟩ := a
  cases v <;> cases u <;> simp_all [Archive.get_version, UnderlyingArchive.tag, token_type_of,
    representation_of]

/-- The directory the tes4 arm leaves under the directory key: the one that was
there, or an empty one, with the file put under the file key. -/
theorem add_file_tes4_find (cx : Codec) (bsa : libbsa.tes4.archive) (p : Path)
    (f : libbsa.tes4.file) :
    (Archive.add_file_tes4 cx bsa p f).dirs.find (top_level_key cx .tes4 p)
      = some (((bsa.dirs.find (top_level_key cx .tes4 p)).getD hashmap.empty).insert
          (file_key cx p) f) := by
  unfold Archive.add_file_tes4 top_level_key file_key
  simp only
  cases h : bsa.dirs.find (cx.key (generic_string (lexically_normal (parent_path p)))) with
  | none =>
    simp only [if_true, hashmap.find_insert, Option.getD_none]
    apply hashmap.find_assign
    simp [hashmap.find_insert]
  | some d =>
    simp only [if_false, h, Option.getD_some, reduceCtorEq]
    apply hashmap.find_assign
    simp [h]

/-- The tes4 arm leaves the other directories alone. -/
theorem add_file_tes4_find_ne (cx : Codec) (bsa : libbsa.tes4.archive) (p : Path)
    (f : libbsa.tes4.file) (k : String) (hk : k ≠ top_level_key cx .tes4 p) :
    (Archive.add_file_tes4 cx bsa p f).dirs.find k = bsa.dirs.find k := by
  unfold Archive.add_file_tes4
  unfold top_level_key at hk
  simp only
  cases h : bsa.dirs.find (cx.key (generic_string (lexically_normal (parent_path p)))) with
  | none =>
    simp only [if_true, hashmap.find_insert]
    rw [hashmap.find_assign_ne _ _ _ _ hk, hashmap.find_insert_ne _ _ _ _ hk]
  | some d =>
    simp only [if_false, h, reduceCtorEq]
    rw [hashmap.find_assign_ne _ _ _ _ hk]

/-- The directory keys after the tes4 arm: one more when the key is new. -/
theorem add_file_tes4_keys (cx : Codec) (bsa : libbsa.tes4.archive) (p : Path)
    (f : libbsa.tes4.file) :
    (Archive.add_file_tes4 cx bsa p f).dirs.keys
      = if top_level_key cx .tes4 p ∈ bsa.dirs.keys then bsa.dirs.keys
        else top_level_key cx .tes4 p :: bsa.dirs.keys := by
  unfold Archive.add_file_tes4 top_level_key
  simp only
  cases h : bsa.dirs.find (cx.key (generic_string (lexically_normal (parent_path p)))) with
  | none =>
    have hk : cx.key (generic_string (lexically_normal (parent_path p))) ∉ bsa.dirs.keys := by
      rw [hashmap.mem_keys_iff]; simp [h]
    simp only [if_true, hashmap.find_insert, hashmap.keys_assign, hashmap.keys_insert, hk,
      if_false, List.erase_of_not_mem hk]
  | some d =>
    have hk : cx.key (generic_string (lexically_normal (parent_path p))) ∈ bsa.dirs.keys := by
      rw [hashmap.mem_keys_iff]; simp [h]
    simp only [if_false, h, reduceCtorEq, hashmap.keys_assign, hk, if_true]

/-- The file object the overload taking bytes builds on a consistent facade of the
hierarchical representation. -/
theorem build_file_tes4 (a : Archive) (data : Bytes) (ht : a.archive_.tag = .tes4)
    (hv : a.archive_.tag = representation_of a.version_) :
    Archive.build_file a data
      = .ok (.tes4 { data := data
                     compression := if a.compressed_
                       then some { type := .tes4_version, ordinal_of := a.version_ }
                       else none }) := by
  have hg := get_version_ok a hv
  rw [ht] at hg
  unfold Archive.build_file
  cases hu : a.archive_ with
  | tes3 bsa => rw [hu] at ht; cases ht
  | fo4 ba2 => rw [hu] at ht; cases ht
  | tes4 bsa =>
    simp only [token_type_of] at hg
    simp only [hg]
    cases a.compressed_ <;> rfl

/-- The overload taking bytes on a consistent facade of the hierarchical
representation: it returns, and the archive is the one the tes4 arm leaves. -/
theorem add_file_data_tes4 (cx : Codec) (a : Archive) (bsa : libbsa.tes4.archive) (p : Path)
    (data : Bytes) (hu : a.archive_ = .tes4 bsa)
    (hv : a.archive_.tag = representation_of a.version_) :
    (Archive.add_file_data cx a p data).result = .ok () ∧
    (Archive.add_file_data cx a p data).archive
      = { a with archive_ := .tes4 (Archive.add_file_tes4 cx bsa p
            { data := data
              compression := if a.compressed_
                then some { type := .tes4_version, ordinal_of := a.version_ }
                else none }) } := by
  have ht : a.archive_.tag = .tes4 := by rw [hu]; rfl
  unfold Archive.add_file_data
  rw [build_file_tes4 a data ht hv]
  constructor <;> simp [Archive.add_file, hu]

/-- The files listed under a pair of keys are the one `find` reaches, if any. -/
theorem files_at_tes4 (a : Archive) (bsa : libbsa.tes4.archive) (dk fk : String)
    (hu : a.archive_ = .tes4 bsa) :
    files_at a dk fk = ((bsa.dirs.find dk).bind (fun d => d.find fk)).toList := by
  unfold files_at
  simp only [hu]
  rw [hashmap.to_list_filter]
  cases bsa.dirs.find dk with
  | none => rfl
  | some d =>
    simp only [Option.map_some', Option.toList_some, List.foldr_cons, List.foldr_nil,
      List.append_nil, Option.some_bind]
    rw [hashmap.to_list_filter]
    cases d.find fk <;> rfl

/-! ## C4: last write wins -/

/-- C4. On a hierarchical facade, bytes `B1` and then bytes `B2` inserted at the same
path leave exactly one file under the pair of the directory key and the file key
of the path; it holds `B2`, not `B1`, and the number of directories is the one
after the first insertion. -/
theorem last_write_wins (cx : Codec) (a : Archive) (P : Path) (B1 B2 : Bytes)
    (hr : Reachable cx a) (ht : a.archive_.tag = .tes4) :
    (Archive.add_file_data cx a P B1).result = .ok () ∧
    (Archive.add_file_data cx (Archive.add_file_data cx a P B1).archive P B2).result = .ok () ∧
    (∃ f : libbsa.tes4.file,
      files_at (Archive.add_file_data cx (Archive.add_file_data cx a P B1).archive P B2).archive
          (top_level_key cx .tes4 P) (file_key cx P) = [f] ∧
      f.data = B2 ∧ (B1 ≠ B2 → f.data ≠ B1)) ∧
    Archive.file_count
        (Archive.add_file_data cx (Archive.add_file_data cx a P B1).archive P B2).archive
      = Archive.file_count (Archive.add_file_data cx a P B1).archive := by
  have hv := reachable_invariant cx a hr
  cases hu : a.archive_ with
  | tes3 bsa => rw [hu] at ht; cases ht
  | fo4 ba2 => rw [hu] at ht; cases ht
  | tes4 bsa =>
    obtain ⟨h1, e1⟩ := add_file_data_tes4 cx a bsa P B1 hu hv
    have hv1 : (Archive.add_file_data cx a P B1).archive.archive_.tag
        = representation_of (Archive.add_file_data cx a P B1).archive.version_ :=
      reachable_invariant cx _ (Reachable.add_file_data a P B1 hr)
    have hu1 : (Archive.add_file_data cx a P B1).archive.archive_
        = .tes4 (Archive.add_file_tes4 cx bsa P
            { data := B1
              compression := if a.compressed_
                then some { type := .tes4_version, ordinal_of := a.version_ }
                else none }) := by rw [e1]
    obtain ⟨h2, e2⟩ := add_file_data_tes4 cx _ _ P B2 hu1 hv1
    refine ⟨h1, h2, ?_, ?_⟩
    · refine ⟨{ data := B2
                compression := if (Archive.add_file_data cx a P B1).archive.compressed_
                  then some { type := .tes4_version
                              ordinal_of := (Archive.add_file_data cx a P B1).archive.version_ }
                  else none }, ?_, rfl, fun hne h => hne h.symm⟩
      rw [files_at_tes4 _ _ _ _ (by rw [e2]), add_file_tes4_find, add_file_tes4_find]
      simp only [Option.getD_some, hashmap.insert_insert, Option.some_bind,
        hashmap.find_insert, Option.toList_some]
    · rw [e2]
      simp only [Archive.file_count, hu1]
      rw [hashmap.size_eq_keys, hashmap.size_eq_keys, add_file_tes4_keys]
      have hk : top_level_key cx .tes4 P
          ∈ (Archive.add_file_tes4 cx bsa P
              { data := B1
                compression := if a.compressed_
                  then some { type := .tes4_version, ordinal_of := a.version_ }
                  else none }).dirs.keys := by
        rw [hashmap.mem_keys_iff, add_file_tes4_find]; simp
      simp [hk]

/-- C4 on the hierarchical facade of version sse, with a file already in the
directory, at the path `sub/dir/file.txt`. -/
theorem last_write_wins_witness :
    files_at
        (Archive.add_file_data sample_codec
          (Archive.add_file_data sample_codec
            (Archive.add_file_data sample_codec (Archive.construct .sse false)
              "sub/dir/other.txt" [7]).archive
            "sub/dir/file.txt" [1, 2]).archive
          "sub/dir/file.txt" [3]).archive
        "sub/dir" "file.txt"
      = [{ data := [3], compression := none }] ∧
    Archive.file_count
        (Archive.add_file_data sample_codec
          (Archive.add_file_data sample_codec
            (Archive.add_file_data sample_codec (Archive.construct .sse false)
              "sub/dir/other.txt" [7]).archive
            "sub/dir/file.txt" [1, 2]).archive
          "sub/dir/file.txt" [3]).archive = 1 :=
  have h := last_write_wins sample_codec
    (Archive.add_file_data sample_codec (Archive.construct .sse false)
      "sub/dir/other.txt" [7]).archive
    "sub/dir/file.txt" [1, 2] [3]
    (Reachable.add_file_data _ _ _ (Reachable.construct .sse false)) (by decide)
  ⟨by decide, h.2.2.2.trans (by decide)⟩

/-! ## More lemmas on insertion -/

/-- The overload taking bytes on a facade of the flat representation: it returns,
and the bytes are under the key of the path as it was given. -/
theorem add_file_data_tes3 (cx : Codec) (a : Archive) (bsa : libbsa.tes3.archive) (p : Path)
    (data : Bytes) (hu : a.archive_ = .tes3 bsa) :
    (Archive.add_file_data cx a p data).result = .ok () ∧
    (Archive.add_file_data cx a p data).archive
      = { a with archive_ := .tes3 (bsa.insert (cx.key (generic_string p)) { data := data }) } := by
  unfold Archive.add_file_data Archive.build_file
  constructor <;> simp [Archive.add_file, hu, libbsa.tes3.file.set_data]

/-- The overload taking bytes on a consistent facade of the flags representation: it
returns, and the file is under the key of the normalised path. -/
theorem add_file_data_fo4 (cx : Codec) (a : Archive) (ba2 : libbsa.fo4.archive) (p : Path)
    (data : Bytes) (hu : a.archive_ = .fo4 ba2)
    (hv : a.archive_.tag = representation_of a.version_) :
    (Archive.add_file_data cx a p data).result = .ok () ∧
    (Archive.add_file_data cx a p data).archive
      = { a with archive_ := .fo4 (ba2.insert (cx.key (generic_string (lexically_normal p)))
            { data := data
              format := { type := .fo4_format, ordinal_of := a.version_ }
              mip_chunk_width := 512
              mip_chunk_height := 512
              level := .normal
              compression := Archive.compress_of a }) } := by
  have hg := get_version_ok a hv
  rw [hu] at hg
  simp only [UnderlyingArchive.tag, token_type_of] at hg
  unfold Archive.add_file_data Archive.build_file
  constructor <;> simp [Archive.add_file, hu, hg]

/-- The size of a facade is the number of its top-level keys. -/
theorem file_count_eq_top_keys (a : Archive) : Archive.file_count a = (top_keys a).length := by
  unfold Archive.file_count top_keys
  cases a.archive_ <;> simp only [hashmap.size_eq_keys]

/-- The top-level keys of a facade are pairwise distinct. -/
theorem top_keys_nodup (a : Archive) : (top_keys a).Nodup := by
  unfold top_keys
  cases a.archive_ <;> exact hashmap.keys_nodup _

/-- An insertion of bytes on a consistent facade returns and adds the top-level key
of the path to the keys of the facade. -/
theorem add_file_data_keys (cx : Codec) (a : Archive) (p : Path) (data : Bytes)
    (hv : a.archive_.tag = representation_of a.version_) :
    (Archive.add_file_data cx a p data).result = .ok () ∧
    (top_keys (Archive.add_file_data cx a p data).archive).toFinset
      = insert (top_level_key cx a.archive_.tag p) (top_keys a).toFinset := by
  cases hu : a.archive_ with
  | tes3 bsa =>
    obtain ⟨h, e⟩ := add_file_data_tes3 cx a bsa p data hu
    refine ⟨h, ?_⟩
    rw [e]
    simp only [top_keys, hu, hashmap.keys_insert, UnderlyingArchive.tag, top_level_key]
    ext k
    by_cases hk : k = cx.key (generic_string p)
    · simp [hk]
    · simp [hk, List.mem_erase_of_ne hk]
  | fo4 ba2 =>
    obtain ⟨h, e⟩ := add_file_data_fo4 cx a ba2 p data hu hv
    refine ⟨h, ?_⟩
    rw [e]
    simp only [top_keys, hu, hashmap.keys_insert, UnderlyingArchive.tag, top_level_key]
    ext k
    by_cases hk : k = cx.key (generic_string (lexically_normal p))
    · simp [hk]
    · simp [hk, List.mem_erase_of_ne hk]
  | tes4 bsa =>
    obtain ⟨h, e⟩ := add_file_data_tes4 cx a bsa p data hu hv
    refine ⟨h, ?_⟩
    rw [e]
    simp only [top_keys, hu, add_file_tes4_keys, UnderlyingArchive.tag]
    split
    · rename_i hk
      ext k
      by_cases hk' : k = top_level_key cx .tes4 p
      · simp [hk', hk]
      · simp [hk']
    · simp

/-- Insertions of bytes one after the other on a consistent facade all return, keep
version and alternative, and add their top-level keys to the keys of the facade. -/
theorem add_all_keys (cx : Codec) :
    ∀ (ins : List (Path × Bytes)) (a : Archive),
      a.archive_.tag = representation_of a.version_ →
      ∃ a', add_all cx a ins = .ok a' ∧
        a'.archive_.tag = a.archive_.tag ∧ a'.version_ = a.version_ ∧
        (top_keys a').toFinset
          = (top_keys a).toFinset
            ∪ (ins.map (fun i => top_level_key cx a.archive_.tag i.1)).toFinset
  | [], a, _ => ⟨a, rfl, rfl, rfl, by simp⟩
  | (p, data) :: rest, a, hv => by
    obtain ⟨h, hk⟩ := add_file_data_keys cx a p data hv
    obtain ⟨fv, _, ft⟩ := add_file_data_frame cx a p data
    have hv1 : (Archive.add_file_data cx a p data).archive.archive_.tag
        = representation_of (Archive.add_file_data cx a p data).archive.version_ := by
      rw [fv, ft]; exact hv
    obtain ⟨a', e, t', v', k'⟩ := add_all_keys cx rest _ hv1
    refine ⟨a', ?_, by rw [t', ft], by rw [v', fv], ?_⟩
    · simp only [add_all, h]
      exact e
    · rw [k', hk, ft]
      ext k
      simp only [Finset.mem_union, Finset.mem_insert, List.mem_toFinset, List.map_cons,
        List.mem_cons]
      tauto

/-! ## C5: the key of a single-level entry -/

/-- C5, the code at the failing input.  On the flat representation the bytes go
under the key of the path as given, whatever the path: after `add_file` at
`a/./b.txt` nothing is under the key of the normal form `a/b.txt`, and a second
insertion at `a/b.txt` makes a second entry.  On the flags representation the
same two insertions address one entry, which holds the second bytes. -/
theorem flat_key_is_not_normalized :
    (∀ (cx : Codec) (c : Bool) (P : Path) (B : Bytes),
      entries_at (Archive.add_file_data cx (Archive.construct .tes3 c) P B).archive
        (cx.key (generic_string P)) = [.tes3 { data := B }]) ∧
    lexically_normal "a/./b.txt" = "a/b.txt" ∧
    entries_at
        (Archive.add_file_data sample_codec (Archive.construct .tes3 false) "a/./b.txt" [1]).archive
        (sample_codec.key (generic_string (lexically_normal "a/./b.txt"))) = [] ∧
    entries_at
        (Archive.add_file_data sample_codec (Archive.construct .tes3 false) "a/./b.txt" [1]).archive
        (sample_codec.key (generic_string "a/./b.txt")) = [.tes3 { data := [1] }] ∧
    Archive.file_count
        (Archive.add_file_data sample_codec
          (Archive.add_file_data sample_codec (Archive.construct .tes3 false)
            "a/./b.txt" [1]).archive
          "a/b.txt" [2]).archive = 2 ∧
    Archive.file_count
        (Archive.add_file_data sample_codec
          (Archive.add_file_data sample_codec (Archive.construct .fo4 false)
            "a/./b.txt" [1]).archive
          "a/b.txt" [2]).archive = 1 := by
  refine ⟨fun cx c P B => ?_, by decide, by decide, by decide, by decide, by decide⟩
  obtain ⟨_, e⟩ := add_file_data_tes3 cx (Archive.construct .tes3 c) hashmap.empty P B rfl
  rw [e]
  simp only [entries_at]
  rw [hashmap.to_list_filter, hashmap.find_insert]
  rfl

/-! ## C6: what `file_count` counts -/

/-- A list that is not empty and whose members are all the same has one distinct
member. -/
theorem card_of_constant {α : Type} [DecidableEq α] (l : List α) (hne : l ≠ [])
    (h : ∀ x ∈ l, ∀ y ∈ l, x = y) : l.toFinset.card = 1 := by
  cases l with
  | nil => exact absurd rfl hne
  | cons x t =>
    have ht : (x :: t).toFinset = {x} := by
      ext y
      simp only [List.mem_toFinset, Finset.mem_singleton]
      constructor
      · intro hy; exact h y hy x (List.mem_cons_self x t)
      · intro hy; rw [hy]; exact List.mem_cons_self x t
    rw [ht, Finset.card_singleton]

/-- C6. Insertions of bytes, one after the other, on an empty facade all return, and
`file_count` is then the number of distinct top-level keys of the inserted paths:
keys of parent paths for the hierarchical representation, so that any files put
in one directory count as 1, and single-level keys for the other two. -/
theorem file_count_counts_top_level_keys (cx : Codec) (V : ArchiveVersion) (c : Bool)
    (ins : List (Path × Bytes)) :
    ∃ a', add_all cx (Archive.construct V c) ins = .ok a' ∧
      Archive.file_count a'
        = ((ins.map (fun i => top_level_key cx (representation_of V) i.1)).dedup).length ∧
      (representation_of V = .tes4 → ins ≠ [] →
        (∀ i ∈ ins, ∀ j ∈ ins,
          cx.key (generic_string (lexically_normal (parent_path i.1)))
            = cx.key (generic_string (lexically_normal (parent_path j.1)))) →
        Archive.file_count a' = 1) := by
  have hv : (Archive.construct V c).archive_.tag
      = representation_of (Archive.construct V c).version_ :=
    reachable_invariant cx _ (Reachable.construct V c)
  have ht : (Archive.construct V c).archive_.tag = representation_of V := hv
  have h0 : (top_keys (Archive.construct V c)).toFinset = ∅ := by
    cases V <;> rfl
  obtain ⟨a', e, _, _, k'⟩ := add_all_keys cx ins _ hv
  rw [h0, ht, Finset.empty_union] at k'
  have hcount : Archive.file_count a'
      = ((ins.map (fun i => top_level_key cx (representation_of V) i.1)).dedup).length := by
    rw [file_count_eq_top_keys, ← List.toFinset_card_of_nodup (top_keys_nodup a'), k',
      List.card_toFinset]
  refine ⟨a', e, hcount, fun h4 hne hsame => ?_⟩
  rw [hcount, ← List.card_toFinset, h4]
  apply card_of_constant
  · simpa using hne
  · intro x hx y hy
    obtain ⟨i, hi, rfl⟩ := List.mem_map.1 hx
    obtain ⟨j, hj, rfl⟩ := List.mem_map.1 hy
    exact hsame i hi j hj

/-- C6 at three files put in the directory `sub` of an empty facade of version
tes4: one directory, three files. -/
theorem file_count_counts_top_level_keys_witness :
    ∃ a', add_all sample_codec (Archive.construct .tes4 false)
        [("sub/a.txt", [1]), ("sub/b.txt", [2]), ("sub/c.txt", [3])] = .ok a' ∧
      Archive.file_count a' = 1 ∧
      files_at a' "sub" "a.txt" ++ files_at a' "sub" "b.txt" ++ files_at a' "sub" "c.txt"
        = [{ data := [1], compression := none }, { data := [2], compression := none },
           { data := [3], compression := none }] :=
  have h := file_count_counts_top_level_keys sample_codec .tes4 false
    [("sub/a.txt", [1]), ("sub/b.txt", [2]), ("sub/c.txt", [3])]
  match h with
  | ⟨a', e, _, h1⟩ =>
    ⟨a', e, h1 rfl (by simp) (by decide), by
      have e' : a' = (Archive.add_file_data sample_codec
          (Archive.add_file_data sample_codec
            (Archive.add_file_data sample_codec (Archive.construct .tes4 false)
              "sub/a.txt" [1]).archive "sub/b.txt" [2]).archive "sub/c.txt" [3]).archive :=
        (Except.ok.inj (e.symm.trans rfl))
      rw [e']
      decide⟩

/-! ## C7: the scenario of `sub/dir/file.txt` -/

/-- The tes4 arm depends on the codec through the two keys it asks for only. -/
theorem add_file_tes4_congr (cx cy : Codec) (bsa : libbsa.tes4.archive) (p : Path)
    (f : libbsa.tes4.file)
    (hd : cx.key (generic_string (lexically_normal (parent_path p)))
      = cy.key (generic_string (lexically_normal (parent_path p))))
    (hf : cx.key (generic_string (lexically_normal (filename p)))
      = cy.key (generic_string (lexically_normal (filename p)))) :
    Archive.add_file_tes4 cx bsa p f = Archive.add_file_tes4 cy bsa p f := by
  unfold Archive.add_file_tes4
  rw [hd, hf]

/-- C7. On `Archive(version, false)` of a hierarchical version, and for a codec that
keeps the names `sub/dir` and `file.txt` as keys, `add_file("sub/dir/file.txt",
"hello")` returns and leaves exactly one directory, keyed `sub/dir`, holding
exactly one file, keyed `file.txt`, with the uncompressed bytes of `hello`;
`file_count()` is 1; and `unpack("temp")` on an empty filesystem writes exactly
one file, `temp/sub/dir/file.txt`, holding `hello`, and throws nothing. -/
theorem hello_scenario (cx : Codec) (V : ArchiveVersion)
    (hV : V = .tes4 ∨ V = .fo3 ∨ V = .sse)
    (hd : cx.key "sub/dir" = "sub/dir") (hf : cx.key "file.txt" = "file.txt") :
    (Archive.add_file_data cx (Archive.construct V false) "sub/dir/file.txt" hello).result
      = .ok () ∧
    directories_of
        (Archive.add_file_data cx (Archive.construct V false) "sub/dir/file.txt" hello).archive
      = [("sub/dir", [("file.txt", { data := hello, compression := none })])] ∧
    Archive.file_count
        (Archive.add_file_data cx (Archive.construct V false) "sub/dir/file.txt" hello).archive
      = 1 ∧
    Archive.unpack
        (Archive.add_file_data cx (Archive.construct V false) "sub/dir/file.txt" hello).archive
        "temp" Disk.empty
      = { disk := { directories := ["temp", "temp/sub", "temp/sub/dir"]
                    files := [("temp/sub/dir/file.txt", hello)] }
          thrown := none } := by
  have hp : generic_string (lexically_normal (parent_path "sub/dir/file.txt")) = "sub/dir" := by
    decide
  have hn : generic_string (lexically_normal (filename "sub/dir/file.txt")) = "file.txt" := by
    decide
  have hinv : (Archive.construct V false).archive_.tag
      = representation_of (Archive.construct V false).version_ :=
    reachable_invariant cx _ (Reachable.construct V false)
  have key : ∀ bsa, (Archive.construct V false).archive_ = .tes4 bsa →
      (Archive.add_file_data cx (Archive.construct V false) "sub/dir/file.txt" hello).archive
        = (Archive.add_file_data sample_codec (Archive.construct V false)
            "sub/dir/file.txt" hello).archive := by
    intro bsa hu
    rw [(add_file_data_tes4 cx _ bsa _ _ hu hinv).2,
      (add_file_data_tes4 sample_codec _ bsa _ _ hu hinv).2]
    rw [add_file_tes4_congr cx sample_codec bsa "sub/dir/file.txt" _
      (by rw [hp, hd]; decide) (by rw [hn, hf]; decide)]
  rcases hV with rfl | rfl | rfl
  · refine ⟨(add_file_data_tes4 cx _ _ _ _ rfl hinv).1, ?_, ?_, ?_⟩ <;>
      rw [key _ rfl] <;> decide
  · refine ⟨(add_file_data_tes4 cx _ _ _ _ rfl hinv).1, ?_, ?_, ?_⟩ <;>
      rw [key _ rfl] <;> decide
  · refine ⟨(add_file_data_tes4 cx _ _ _ _ rfl hinv).1, ?_, ?_, ?_⟩ <;>
      rw [key _ rfl] <;> decide

/-- C7 for the version sse and the codec with the key normalisation of the spec. -/
theorem hello_scenario_witness :
    Archive.file_count
        (Archive.add_file_data sample_codec (Archive.construct .sse false)
          "sub/dir/file.txt" hello).archive = 1 ∧
    (Archive.unpack
        (Archive.add_file_data sample_codec (Archive.construct .sse false)
          "sub/dir/file.txt" hello).archive
        "temp" Disk.empty).disk.files = [("temp/sub/dir/file.txt", hello)] :=
  have h := hello_scenario sample_codec .sse (Or.inr (Or.inr rfl)) (by decide) (by decide)
  ⟨h.2.2.1, by rw [h.2.2.2]⟩

/-! ## C8: the flags a constructor sets -/

/-- C8. `Archive(V, c)` of a hierarchical version is an empty hierarchical archive
whose flags are exactly `directory_strings | file_strings`, with `compressed`
added exactly when `c` is set; of any other version it is an empty archive as its
default constructor leaves it, and `c` is kept on the facade alone. -/
theorem construct_flags (c : Bool) :
    (∀ V : ArchiveVersion, V = .tes4 ∨ V = .fo3 ∨ V = .sse →
      (Archive.construct V c).archive_
        = .tes4 { archive_flags :=
                    if c then {.directory_strings, .file_strings, .compressed}
                    else {.directory_strings, .file_strings}
                  dirs := hashmap.empty } ∧
      (∀ bsa, (Archive.construct V c).archive_ = .tes4 bsa →
        (libbsa.tes4.archive_flag.compressed ∈ bsa.archive_flags ↔ c = true) ∧
        libbsa.tes4.archive_flag.directory_strings ∈ bsa.archive_flags ∧
        libbsa.tes4.archive_flag.file_strings ∈ bsa.archive_flags)) ∧
    (Archive.construct .tes3 c).archive_ = .tes3 hashmap.empty ∧
    (Archive.construct .fo4 c).archive_ = .fo4 hashmap.empty ∧
    (Archive.construct .fo4dx c).archive_ = .fo4 hashmap.empty ∧
    (∀ V : ArchiveVersion,
      (Archive.construct V c).compressed_ = c ∧ (Archive.construct V c).version_ = V ∧
      Archive.file_count (Archive.construct V c) = 0) := by
  refine ⟨?_, rfl, rfl, rfl, fun V => ?_⟩
  · intro V hV
    have hf : ∀ b : Bool,
        (if b = true
          then (({.directory_strings} ∪ {.file_strings} : Finset libbsa.tes4.archive_flag)
            ∪ {.compressed})
          else {.directory_strings} ∪ {.file_strings})
        = (if b = true then {.directory_strings, .file_strings, .compressed}
          else {.directory_strings, .file_strings}) := by
      intro b; cases b <;> decide
    have he : (Archive.construct V c).archive_
        = .tes4 { archive_flags :=
                    if c then {.directory_strings, .file_strings, .compressed}
                    else {.directory_strings, .file_strings}
                  dirs := hashmap.empty } := by
      rcases hV with rfl | rfl | rfl <;>
        simp only [Archive.construct, libbsa.tes4.archive.empty, hf]
    refine ⟨he, fun bsa h => ?_⟩
    rw [he] at h
    cases h
    cases c <;> decide
  · cases V <;> exact ⟨rfl, rfl, rfl⟩

/-- C8 at `Archive(sse, true)`. -/
theorem construct_flags_witness :
    (Archive.construct .sse true).archive_
      = .tes4 { archive_flags := {.directory_strings, .file_strings, .compressed}
                dirs := hashmap.empty } :=
  ((construct_flags true).1 .sse (Or.inr (Or.inr rfl))).1

/-! ## C9: the compression policy of the overload taking bytes -/

/-- C9. `add_file(P, B)` hands `add_file(P, file)` a file object built from `B`: on a
flat facade the bytes `B`, whatever the compression flag; on a hierarchical
facade a file holding `B`, compressed for the `tes4::version` token of the
facade's version exactly when the flag is set; on a flags facade a file read from
`B` for the `fo4::format` token of the facade's version, with compression
requested exactly when the flag is set.  That object is the one the archive then
lists under the key or keys of `P`. -/
theorem compression_policy (cx : Codec) (a : Archive) (P : Path) (B : Bytes)
    (hr : Reachable cx a) :
    (∃ f, Archive.build_file a B = .ok f ∧ f.tag = a.archive_.tag ∧
      Archive.add_file_data cx a P B = Archive.add_file cx a P f ∧
      (Archive.add_file_data cx a P B).result = .ok ()) ∧
    (a.archive_.tag = .tes3 →
      Archive.build_file a B = .ok (.tes3 { data := B }) ∧
      entries_at (Archive.add_file_data cx a P B).archive (cx.key (generic_string P))
        = [.tes3 { data := B }]) ∧
    (a.archive_.tag = .tes4 →
      ∃ f : libbsa.tes4.file, Archive.build_file a B = .ok (.tes4 f) ∧ f.data = B ∧
        Archive.get_version a .tes4_version
          = .ok { type := .tes4_version, ordinal_of := a.version_ } ∧
        f.compression = (if a.compressed_
          then some { type := .tes4_version, ordinal_of := a.version_ } else none) ∧
        (f.compression.isSome ↔ a.compressed_ = true) ∧
        (a.compressed_ = false → f = { data := B, compression := none }) ∧
        files_at (Archive.add_file_data cx a P B).archive
          (top_level_key cx .tes4 P) (file_key cx P) = [f]) ∧
    (a.archive_.tag = .fo4 →
      ∃ f : libbsa.fo4.file, Archive.build_file a B = .ok (.fo4 f) ∧ f.data = B ∧
        Archive.get_version a .fo4_format
          = .ok { type := .fo4_format, ordinal_of := a.version_ } ∧
        f.format = { type := .fo4_format, ordinal_of := a.version_ } ∧
        (f.compression = .compressed ↔ a.compressed_ = true) ∧
        (a.compressed_ = false → f.compression = .decompressed) ∧
        entries_at (Archive.add_file_data cx a P B).archive
          (cx.key (generic_string (lexically_normal P))) = [.fo4 f]) := by
  have hv := reachable_invariant cx a hr
  have hg := get_version_ok a hv
  cases hu : a.archive_ with
  | tes3 bsa =>
    have hb : Archive.build_file a B = .ok (.tes3 { data := B }) := by
      simp [Archive.build_file, hu, libbsa.tes3.file.set_data]
    obtain ⟨h, e⟩ := add_file_data_tes3 cx a bsa P B hu
    refine ⟨⟨_, hb, rfl, ?_, h⟩, ?_, ?_, ?_⟩
    · simp [Archive.add_file_data, hb]
    · intro _
      refine ⟨hb, ?_⟩
      rw [e]
      simp only [entries_at]
      rw [hashmap.to_list_filter, hashmap.find_insert]
      rfl
    · intro h; cases h
    · intro h; cases h
  | tes4 bsa =>
    have ht : a.archive_.tag = .tes4 := by rw [hu]; rfl
    have hb := build_file_tes4 a B ht hv
    rw [ht] at hg
    obtain ⟨h, e⟩ := add_file_data_tes4 cx a bsa P B hu hv
    refine ⟨⟨_, hb, rfl, ?_, h⟩, ?_, ?_, ?_⟩
    · simp [Archive.add_file_data, hb]
    · intro h; cases h
    · intro _
      refine ⟨_, hb, rfl, hg, rfl, ?_, ?_, ?_⟩
      · cases a.compressed_ <;> simp
      · intro hc; simp [hc]
      · rw [files_at_tes4 _ _ _ _ (by rw [e]), add_file_tes4_find]
        simp only [Option.some_bind, hashmap.find_insert, Option.toList_some]
    · intro h; cases h
  | fo4 ba2 =>
    have ht : a.archive_.tag = .fo4 := by rw [hu]; rfl
    rw [ht] at hg
    simp only [token_type_of] at hg
    have hb : Archive.build_file a B
        = .ok (.fo4 { data := B
                      format := { type := .fo4_format, ordinal_of := a.version_ }
                      mip_chunk_width := 512
                      mip_chunk_height := 512
                      level := .normal
                      compression := Archive.compress_of a }) := by
      simp [Archive.build_file, hu, hg]
    obtain ⟨h, e⟩ := add_file_data_fo4 cx a ba2 P B hu hv
    refine ⟨⟨_, hb, rfl, ?_, h⟩, ?_, ?_, ?_⟩
    · simp [Archive.add_file_data, hb]
    · intro h; cases h
    · intro h; cases h
    · intro _
      refine ⟨_, hb, rfl, hg, rfl, ?_, ?_, ?_⟩
      · cases hc : a.compressed_ <;> simp [Archive.compress_of, hc]
      · intro hc; simp [Archive.compress_of, hc]
      · rw [e]
        simp only [entries_at]
        rw [hashmap.to_list_filter, hashmap.find_insert]
        rfl

/-- C9 at a flat facade with the flag set, and at a hierarchical one with the flag
set. -/
theorem compression_policy_witness :
    Archive.build_file (Archive.construct .tes3 true) hello = .ok (.tes3 { data := hello }) ∧
    (∃ f : libbsa.tes4.file,
      Archive.build_file (Archive.construct .fo3 true) hello = .ok (.tes4 f) ∧
      f.compression = some { type := .tes4_version, ordinal_of := .fo3 }) :=
  ⟨((compression_policy sample_codec (Archive.construct .tes3 true) "a/b.txt" hello
      (Reachable.construct .tes3 true)).2.1 rfl).1,
   match (compression_policy sample_codec (Archive.construct .fo3 true) "a/b.txt" hello
      (Reachable.construct .fo3 true)).2.2.1 rfl with
   | ⟨f, hb, _, _, hc, _⟩ => ⟨f, hb, hc⟩⟩

/-! ## C10: `error_from_hresult` -/

namespace tex

theorem and_low16 (u : Nat) : u &&& 0xFFFF = u % 65536 :=
  Nat.and_pow_two_sub_one_eq_mod u 16

theorem and_high16 (u : Nat) : u &&& 0xFFFF0000 = (u / 65536 % 65536) * 65536 := by
  apply Nat.eq_of_testBit_eq
  intro i
  have hm : (0xFFFF0000 : Nat) = 2 ^ 16 * (2 ^ 16 - 1) := by norm_num
  have hr : (u / 65536 % 65536) * 65536 = 2 ^ 16 * ((u >>> 16) % 2 ^ 16) := by
    rw [Nat.shiftRight_eq_div_pow]; norm_num [Nat.mul_comm]
  rw [hr, Nat.testBit_and, hm, Nat.testBit_mul_pow_two, Nat.testBit_mul_pow_two,
    Nat.testBit_two_pow_sub_one, Nat.testBit_mod_two_pow, Nat.testBit_shiftRight]
  by_cases h : 16 ≤ i
  · have : 16 + (i - 16) = i := by omega
    simp [h, this, Bool.and_comm]
  · simp [h]

theorem or_low16 (c : Nat) (h : c ≤ 0xFFFF) : 0x80070000 ||| c = 0x80070000 + c := by
  have h1 : (0x80070000 : Nat) = 2 ^ 16 * 0x8007 := by norm_num
  rw [h1, Nat.mul_add_lt_is_or (by omega) 0x8007]

/-- The narrowing cast keeps a value of sixteen bits. -/
theorem to_int32_low16 (u : Nat) : to_int32 (u &&& 0xFFFF) = ((u &&& 0xFFFF : Nat) : Int) := by
  rw [and_low16]
  unfold to_int32
  have h : u % 65536 % 2 ^ 32 = u % 65536 := by omega
  rw [h]
  have h2 : u % 65536 < 2 ^ 31 := by omega
  rw [if_pos h2]

/-- The error code `error_from_hresult` returns, case by case. -/
theorem error_from_hresult_code (ord : TextureErr → Int) (hr : Int) (d : error_code)
    (loc : source_location) :
    (error_from_hresult ord hr d loc).code
      = (if to_uint64 hr &&& 0xFFFF0000 = 0x80070000
          then { value := ((to_uint64 hr &&& 0xFFFF : Nat) : Int), category := .system }
          else if hr = 0 then make_error_code ord .Success else d) := by
  unfold error_from_hresult
  simp only [to_int32_low16]
  split
  · rfl
  · split <;> rfl

/-- C10. Built without `_WIN32`, `error_from_hresult(hr, d)` carries (i) the system
error `(hr mod 2^64) & 0xFFFF` when `(hr mod 2^64) & 0xFFFF0000` is `0x80070000`,
(ii) otherwise `TextureErr::Success` when `hr` is 0, (iii) otherwise `d`.  So
`0x80070000 | c` decodes to the system error `c` for `1 <= c <= 0xFFFF`, zero- or
sign-extended to 64 bits; the upper 32 bits of `hr` do not matter in case (i);
and `Success` is returned for `hr = 0` only, unless `d` is `Success`. -/
theorem hresult_decoding (ord : TextureErr → Int) (d : error_code) (loc : source_location) :
    (∀ hr : Int,
      (error_from_hresult ord hr d loc).loc = loc ∧
      (error_from_hresult ord hr d loc).code
        = (if to_uint64 hr &&& 0xFFFF0000 = 0x80070000
            then { value := ((to_uint64 hr &&& 0xFFFF : Nat) : Int), category := .system }
            else if hr = 0 then make_error_code ord .Success else d)) ∧
    (∀ c : Nat, 1 ≤ c → c ≤ 0xFFFF →
      (error_from_hresult ord ((0x80070000 ||| c : Nat) : Int) d loc).code
        = { value := (c : Int), category := .system } ∧
      (error_from_hresult ord (((0x80070000 ||| c : Nat) : Int) - 2 ^ 32) d loc).code
        = { value := (c : Int), category := .system }) ∧
    (∀ hr hr' : Int, hr % 2 ^ 32 = hr' % 2 ^ 32 →
      to_uint64 hr &&& 0xFFFF0000 = 0x80070000 →
      to_uint64 hr' &&& 0xFFFF0000 = 0x80070000 ∧
      error_from_hresult ord hr' d loc = error_from_hresult ord hr d loc) ∧
    (∀ hr : Int,
      (error_from_hresult ord hr d loc).code = make_error_code ord .Success →
      hr = 0 ∨ d = make_error_code ord .Success) := by
  refine ⟨fun hr => ⟨?_, error_from_hresult_code ord hr d loc⟩, ?_, ?_, ?_⟩
  · unfold error_from_hresult
    simp only
    split
    · rfl
    · split <;> rfl
  · intro c h1 h2
    rw [or_low16 c h2]
    constructor
    · rw [error_from_hresult_code, and_high16, and_low16]
      have hc : (to_uint64 ((0x80070000 + c : Nat) : Int)) = 0x80070000 + c := by
        unfold to_uint64; omega
      rw [hc]
      have ha : (0x80070000 + c) / 65536 % 65536 * 65536 = 0x80070000 := by omega
      have hb : (0x80070000 + c) % 65536 = c := by omega
      rw [if_pos ha, hb]
    · rw [error_from_hresult_code, and_high16, and_low16]
      have hc : (to_uint64 (((0x80070000 + c : Nat) : Int) - 2 ^ 32))
          = 0xFFFFFFFF00000000 + (0x80070000 + c) := by
        unfold to_uint64; omega
      rw [hc]
      have ha : (0xFFFFFFFF00000000 + (0x80070000 + c)) / 65536 % 65536 * 65536
          = 0x80070000 := by omega
      have hb : (0xFFFFFFFF00000000 + (0x80070000 + c)) % 65536 = c := by omega
      rw [if_pos ha, hb]
  · intro hr hr' hm hi
    rw [and_high16] at hi
    have hi' : to_uint64 hr' &&& 0xFFFF0000 = 0x80070000 := by
      rw [and_high16]
      unfold to_uint64 at hi ⊢
      omega
    have hl : to_uint64 hr' &&& 0xFFFF = to_uint64 hr &&& 0xFFFF := by
      rw [and_low16, and_low16]
      unfold to_uint64
      omega
    rw [← and_high16] at hi
    refine ⟨hi', ?_⟩
    unfold error_from_hresult
    simp only [hi, hi', hl, if_true]
  · intro hr h
    rw [error_from_hresult_code] at h
    split at h
    · simp [make_error_code] at h
    · split at h
      · left; assumption
      · right; exact h

/-- C10 at `HRESULT_FROM_WIN32(ERROR_INVALID_DATA)`, 13, sign-extended. -/
theorem hresult_decoding_witness :
    (error_from_hresult (fun _ => 0) (((0x80070000 ||| 13 : Nat) : Int) - 2 ^ 32)
        { value := 1, category := .texture_err } "here").code
      = { value := 13, category := .system } :=
  ((hresult_decoding (fun _ => 0) { value := 1, category := .texture_err } "here").2.1 13
    (by decide) (by decide)).2

end tex

/-! ## C11: the classification of failure sources -/

namespace tex

/-- An error code made of an enumerator equals another enumerator exactly when the
two enumerators are the same, their values being distinct. -/
theorem equals_enum_make (ord : TextureErr → Int) (hord : Function.Injective ord)
    (e x : TextureErr) : equals_enum ord (make_error_code ord e) x = true ↔ e = x := by
  unfold equals_enum make_error_code
  simp only [decide_eq_true_eq, error_code.mk.injEq, and_true]
  exact ⟨fun h => hord h, fun h => by rw [h]⟩

/-- C11. With enumerators of distinct values (the `switch` statements over them could
not list them as case labels otherwise), `equivalent(make_error_code(e),
BadUserInput)` is true exactly for `e = BadInput` and
`equivalent(make_error_code(e), SystemError)` exactly for `e = Unknown` and
`e = MemoryAllocation`; no error code is equivalent to both conditions;
`Success`, `WriteFailure` and `ReadFailure` are equivalent to neither; and for
every other condition value the result is false for every error code. -/
theorem failure_source_classification (ord : TextureErr → Int) (cond_of : FailureSource → Int)
    (hord : Function.Injective ord) (hcond : cond_of .BadUserInput ≠ cond_of .SystemError) :
    (∀ e : TextureErr,
      equivalent ord cond_of (make_error_code ord e) (cond_of .BadUserInput) = true
        ↔ e = .BadInput) ∧
    (∀ e : TextureErr,
      equivalent ord cond_of (make_error_code ord e) (cond_of .SystemError) = true
        ↔ e = .Unknown ∨ e = .MemoryAllocation) ∧
    (∀ ec : error_code,
      ¬ (equivalent ord cond_of ec (cond_of .BadUserInput) = true ∧
         equivalent ord cond_of ec (cond_of .SystemError) = true)) ∧
    (∀ e : TextureErr, e = .Success ∨ e = .WriteFailure ∨ e = .ReadFailure →
      equivalent ord cond_of (make_error_code ord e) (cond_of .BadUserInput) = false ∧
      equivalent ord cond_of (make_error_code ord e) (cond_of .SystemError) = false) ∧
    (∀ (ec : error_code) (cond : Int),
      cond ≠ cond_of .BadUserInput → cond ≠ cond_of .SystemError →
      equivalent ord cond_of ec cond = false) := by
  have hb : ∀ ec, equivalent ord cond_of ec (cond_of .BadUserInput)
      = equals_enum ord ec .BadInput := by
    intro ec; unfold equivalent; rw [if_pos rfl]
  have hs : ∀ ec, equivalent ord cond_of ec (cond_of .SystemError)
      = (equals_enum ord ec .Unknown || equals_enum ord ec .MemoryAllocation) := by
    intro ec; unfold equivalent; rw [if_neg (Ne.symm hcond), if_pos rfl]
  have h1 : ∀ e : TextureErr,
      equivalent ord cond_of (make_error_code ord e) (cond_of .BadUserInput) = true
        ↔ e = .BadInput := by
    intro e; rw [hb, equals_enum_make ord hord]
  have h2 : ∀ e : TextureErr,
      equivalent ord cond_of (make_error_code ord e) (cond_of .SystemError) = true
        ↔ e = .Unknown ∨ e = .MemoryAllocation := by
    intro e
    rw [hs, Bool.or_eq_true, equals_enum_make ord hord, equals_enum_make ord hord]
  refine ⟨h1, h2, ?_, ?_, ?_⟩
  · intro ec ⟨hbad, hsys⟩
    rw [hb] at hbad
    rw [hs, Bool.or_eq_true] at hsys
    unfold equals_enum at hbad hsys
    simp only [decide_eq_true_eq] at hbad hsys
    rcases hsys with h | h
    · have := (equals_enum_make ord hord .BadInput .Unknown).1 (by
        unfold equals_enum; rw [← hbad, h]; simp)
      cases this
    · have := (equals_enum_make ord hord .BadInput .MemoryAllocation).1 (by
        unfold equals_enum; rw [← hbad, h]; simp)
      cases this
  · intro e he
    constructor
    · rw [Bool.eq_false_iff, ne_eq, h1]
      rcases he with rfl | rfl | rfl <;> simp
    · rw [Bool.eq_false_iff, ne_eq, h2]
      rcases he with rfl | rfl | rfl <;> simp
  · intro ec cond hc1 hc2
    unfold equivalent
    rw [if_neg hc1, if_neg hc2]

/-- C11 at the enumerator values in declaration order: `MemoryAllocation` is a
system error and not a bad user input. -/
theorem failure_source_classification_witness :
    equivalent sample_ord sample_cond_of (make_error_code sample_ord .MemoryAllocation)
        (sample_cond_of .SystemError) = true ∧
    ¬ equivalent sample_ord sample_cond_of (make_error_code sample_ord .MemoryAllocation)
        (sample_cond_of .BadUserInput) = true :=
  have hord : Function.Injective sample_ord := by
    intro a b h
    cases a <;> cases b <;> first | rfl | exact absurd h (by decide)
  have h := failure_source_classification sample_ord sample_cond_of hord (by decide)
  ⟨(h.2.1 .MemoryAllocation).2 (Or.inr rfl),
   fun hb => TextureErr.noConfusion ((h.1 .MemoryAllocation).1 hb)⟩

end tex

end btu
